import Mathlib

/-!
# Verification of the SooL structural merge engine against its specification

This development shallowly embeds the core data structures and algorithms of
the SooL generator (`sool/structure/*.py`, `sool/cleaners/corrector.py`) in
Lean 4 and settles a list of claims about them.

Python exceptions are modelled with `Except PyErr`; an exception aborts the
computation and discards intermediate state, which matches the call sites
relevant here (no caller catches the modelled exceptions).  Python `set`s of
chips are modelled as lists used as sets, dictionaries as association lists in
insertion order.
-/

namespace Sool

/-- Taxonomy of the Python exceptions the embedded code can raise.
`lockedComponentError` is the error kind named by the specification; it is
included so statements can compare against it, but no code in the repository
ever raises it. -/
inductive PyErr where
  | assertionError
  | nameError
  | typeError
  | valueError
  | keyError
  | attributeError
  | indexError
  | runtimeError
  | fixConvergenceError
  | lockedComponentError
  | outOfFuel
  deriving DecidableEq, Repr

instance {ε α : Type} [DecidableEq ε] [DecidableEq α] :
    DecidableEq (Except ε α) := fun x y =>
  match x, y with
  | .ok u, .ok v => decidable_of_iff (u = v) (by simp)
  | .error u, .error v => decidable_of_iff (u = v) (by simp)
  | .ok _, .error _ => isFalse (by simp)
  | .error _, .ok _ => isFalse (by simp)

/-! ## Fields and registers (`field.py`, `register.py`)

`Field` carries `(name, position, size)`; the chipset and brief play no role
in field equality (`Field.__eq__` compares position, size and name only) and
are omitted from this record. -/

structure FieldR where
  name : Option String
  position : Nat
  size : Nat
  deriving DecidableEq, Repr

/-- `Field.__eq__`: position, size and name must match. -/
def fieldEq (f other : FieldR) : Bool :=
  f.position == other.position && f.size == other.size && f.name == other.name

/-- A register as far as `Register.__eq__` is concerned: its ordered list of
fields (`children`).  Name, size and access are not inspected by `__eq__`. -/
structure RegisterR where
  fields : List FieldR
  deriving DecidableEq, Repr

/-- Membership of a field in a register: `field in register` resolves to
`Component.__contains__`, which scans the children for `child is item or
child == item`; identity is subsumed by equality on this value model. -/
def registerContains (r : RegisterR) (f : FieldR) : Bool :=
  r.fields.any (fun child => fieldEq child f)

/-- `Register.__eq__`: every field of `self` occurs in `other` and every field
of `other` occurs in `self` (mutual containment). -/
def registerEq (self other : RegisterR) : Bool :=
  self.fields.all (fun f => registerContains other f) &&
  other.fields.all (fun f => registerContains self f)

/-! ## `Field.fill_bit_mask` (`field.py`, lines 142-147)

```python
def fill_bit_mask(self, bit_mask):
    for i in range(self.position, self.position + self.size - 1):
        bit_mask[i] = True
```
The loop runs over `range(position, position + size - 1)`, and each
`bit_mask[i] = True` raises `IndexError` when `i` is out of range. -/

/-- Set one list index, `IndexError` when out of bounds (Python list item
assignment). -/
def setBit (mask : List Bool) (i : Nat) : Except PyErr (List Bool) :=
  if i < mask.length then .ok (mask.set i true) else .error .indexError

/-- The indices of Python `range(a, b)` (empty when `b ≤ a`). -/
def pyRange (a b : Nat) : List Nat := (List.range (b - a)).map (a + ·)

/-- `Field.fill_bit_mask`, translated from the source: iterates over
`range(position, position + size - 1)`. -/
def fill_bit_mask (position size : Nat) (mask : List Bool) :
    Except PyErr (List Bool) :=
  (pyRange position (position + size - 1)).foldlM setBit mask

/-! ## `Register.merge_names` and the rename step of `Register.absorb`
(`register.py`, lines 68-110 and 222-243)

`merge_names` is declared as

```python
def merge_names(name1: str, name2: str) -> T.Union[str, None]:
    if len(name_1) > len(name_2) :
```

Its parameters are `name1`/`name2`, while the whole body reads `name_1` and
`name_2`.  Neither identifier is bound anywhere (no global of that name
exists in `register.py`), so the very first statement raises `NameError` on
every call; everything after it is unreachable. -/

/-- `Register.merge_names`: every call raises `NameError` because the body
reads the unbound variables `name_1`/`name_2`. -/
def merge_names (_name1 _name2 : String) : Except PyErr (Option String) :=
  .error .nameError

/-- The substitution loop of `Register.absorb` on an already-taken name: while
the candidate differs from both original names and is taken in the parent,
substitute `z → n`, else `y → z`, else `x → y`; assert-fail when `n` is
already present or no substitutable letter remains.  (Reachable only if
`merge_names` returned, which it never does.) -/
def renameSubstLoop (fuel : Nat) (parentNames : List (Option String))
    (selfName otherName : Option String) (newName : String) :
    Except PyErr String :=
  match fuel with
  | 0 => .error .outOfFuel
  | fuel + 1 =>
    if selfName ≠ some newName ∧ otherName ≠ some newName ∧
        (some newName) ∈ parentNames then
      if (newName.toList.contains 'n') then .error .assertionError
      else if newName.toList.contains 'z' then
        renameSubstLoop fuel parentNames selfName otherName
          (newName.replace "z" "n")
      else if newName.toList.contains 'y' then
        renameSubstLoop fuel parentNames selfName otherName
          (newName.replace "y" "z")
      else if newName.toList.contains 'x' then
        renameSubstLoop fuel parentNames selfName otherName
          (newName.replace "x" "y")
      else .error .assertionError
    else .ok newName

/-- The renaming performed at the end of `Register.absorb` (after
`super().absorb(other)`): when the two names differ, compute
`merge_names(self.name, other.name)` — which raises `NameError` — then run the
substitution loop and install the final name. -/
def registerAbsorbRename (fuel : Nat) (parentNames : List (Option String))
    (selfName otherName : Option String) : Except PyErr (Option String) :=
  if selfName ≠ otherName then do
    let merged ← match selfName, otherName with
      | some n1, some n2 => merge_names n1 n2
      | _, _ => .error .typeError
    -- `if new_name is None : ... new_name = self.name` (keep self name)
    let newName := match merged with
      | none => selfName
      | some n => some n
    match newName with
    | none => .ok none
    | some n => do
      let final ← renameSubstLoop fuel parentNames selfName otherName n
      .ok (some final)
  else .ok selfName

/-! ## Chips and chip sets (`chip.py`, `chipset.py`)

A `Chip` is identified here by its `name` (`computed_define`); header/svd
paths and the processor play no role in the functions under study.  Python
`set`s of chips are lists used as sets. -/

structure ChipR where
  name : String
  deriving DecidableEq, Repr

/-- Shell-style pattern matching (`fnmatch.fnmatch` on a case-preserving
platform) restricted to the `*` and `?` meta-characters, which are the only
ones appearing in the patterns of this code base.  The fuel argument only
serves structural recursion; `pattern length + string length + 1` always
suffices. -/
def globMatch (fuel : Nat) (p s : List Char) : Bool :=
  match fuel with
  | 0 => false
  | fuel + 1 =>
    match p, s with
    | [], [] => true
    | [], _ :: _ => false
    | '*' :: ps, [] => globMatch fuel ps []
    | '*' :: ps, c :: cs =>
      globMatch fuel ps (c :: cs) || globMatch fuel ('*' :: ps) cs
    | '?' :: _, [] => false
    | '?' :: ps, _ :: cs => globMatch fuel ps cs
    | a :: ps, c :: cs => a == c && globMatch fuel ps cs
    | _ :: _, [] => false

def fnmatch (s pat : String) : Bool :=
  globMatch (pat.length + s.length + 1) pat.toList s.toList

/-- Stable insertion of `x` into `l` (before the first entry it precedes
strictly, after equals), the building block of `sorted`. -/
def insSorted (le : α → α → Bool) (x : α) : List α → List α
  | [] => [x]
  | y :: ys => if le y x then y :: insSorted le x ys else x :: y :: ys

/-- Python `sorted` with a boolean `≤` comparator. -/
def pySorted (le : α → α → Bool) (l : List α) : List α :=
  l.foldr (insSorted le) []

/-- `Chip.get_family`: reject names that do not match `STM32*` with
`ValueError`; family is the first 8 characters for the MP sub-family, else the
first 7. -/
def get_family (chip_name : String) : Except PyErr String :=
  if ¬ fnmatch chip_name "STM32*" then .error .valueError
  else if fnmatch chip_name "STM32MP*" then .ok (chip_name.take 8)
  else .ok (chip_name.take 7)

/-- Python `str.upper` on the character lists involved here. -/
def strUpper (s : String) : String := String.mk (s.toList.map Char.toUpper)

/-- Add a chip under a family key, keeping dictionary insertion order and set
semantics for the per-family chip sets (`ChipSet.update_families`). -/
def famInsert (acc : List (String × List ChipR)) (fam : String) (c : ChipR) :
    List (String × List ChipR) :=
  match acc with
  | [] => [(fam, [c])]
  | (f, l) :: rest =>
    if f = fam then (f, if c ∈ l then l else l ++ [c]) :: rest
    else (f, l) :: famInsert rest fam c

/-- `ChipSet.update_families`: family keys are
`Chip.get_family(str(chip)).upper()`. -/
def updateFamilies (chips : List ChipR) :
    Except PyErr (List (String × List ChipR)) :=
  chips.foldlM (fun acc c => do
    let fam ← get_family c.name
    pure (famInsert acc (strUpper fam) c)) []

/-- A token emitted by `ChipSet.defined_list`: either a whole-family define or
an individual chip define. -/
inductive DefTok where
  | family (f : String)
  | chip (n : String)
  deriving DecidableEq, Repr

/-- Code-point comparison of strings (Python `sorted` order). -/
def charListLe : List Char → List Char → Bool
  | [], _ => true
  | _ :: _, [] => false
  | a :: as, b :: bs =>
    if a.val < b.val then true
    else if b.val < a.val then false
    else charListLe as bs

def strLe (a b : String) : Bool := charListLe a.toList b.toList

/-- The emission loops of `ChipSet.defined_list` (reached when the chipset is
not a superset of the reference): first one `defined(<FAMILY>)` per wholly
contained family of the reference in sorted key order, then one
`defined(<chip>)` for every chip of the set, in name order, whose family is
not among the matched keys.  (After the family loop every value of
`matched_family` is `False`, so the chip-loop guard
`family not in matched_family or matched_family[family]` reduces to
`family not in matched_family`.) -/
def definedEmissions (S R : List ChipR) : Except PyErr (List DefTok) := do
  let fams ← updateFamilies R
  let matched := fams.filter (fun fl => fl.2.all (· ∈ S))
  let matchedKeys := matched.map (·.1)
  let famToks := (pySorted strLe matchedKeys).map DefTok.family
  let chipToks ← (pySorted (fun a b => strLe a.name b.name) S).foldlM
    (fun acc c => do
      let fam ← get_family c.name   -- note: no `.upper()` in this loop
      if matchedKeys.contains fam then pure acc
      else pure (acc ++ [DefTok.chip c.name])) []
  pure (famToks ++ chipToks)

/-- Pad a name to 13 characters (`f"defined({x:13s})"`). -/
def pad13 (s : String) : String :=
  s ++ String.mk (List.replicate (13 - s.length) ' ')

/-- Render one emission as its `defined(...)` fragment. -/
def tokText : DefTok → String
  | .family f => "defined(" ++ pad13 f ++ ") || "
  | .chip n => "defined(" ++ pad13 n ++ ") || "

/-- String assembly of `defined_list`: a line break (`\` + newline + prefix)
is inserted whenever `line_size` reaches `chips_per_line`, and each emitted
token bumps `line_size`. -/
def renderToks (cpl : Nat) (pfx : String) : List DefTok → Nat → String
  | [], _ => ""
  | t :: ts, lineSize =>
    if lineSize = cpl then
      "\\\n" ++ pfx ++ tokText t ++ renderToks cpl pfx ts 1
    else
      tokText t ++ renderToks cpl pfx ts (lineSize + 1)

/-- `ChipSet.defined_list(chips_per_line, reference_chipset, newline_prefix)`:
return `"1"` when the chipset is a superset of the reference
(`self >= reference_chipset`); otherwise emit the family and chip tokens and
strip the trailing `" || "` (`output[:-4]`). -/
def defined_list (S R : List ChipR) (chipsPerLine : Nat) (pfx : String) :
    Except PyErr String :=
  if R.all (· ∈ S) then .ok "1"
  else do
    let toks ← definedEmissions S R
    .ok ((renderToks chipsPerLine pfx toks 0).dropRight 4)

/-! ## Mapping elements and placement (`mappingelement.py`, `peripheral.py`)

`MappingElement` binds a name and address to a register (identified here by
its name and bit size).  `PeripheralMapping` itself is not part of the
sources; its operations used by `Peripheral.add_placement` are modelled from
the spec below. -/

structure ElemR where
  name : Option String
  address : Nat
  arraySize : Nat
  arraySpace : Nat
  compName : Option String
  compSize : Nat
  chips : List ChipR
  deriving DecidableEq, Repr, Inhabited

/-- `MappingElement.size`: the component size, or
`(component.size + array_space) * array_size - array_space` for an array. -/
def elemSize (e : ElemR) : Nat :=
  if e.arraySize = 0 then e.compSize
  else (e.compSize + e.arraySpace) * e.arraySize - e.arraySpace

/-- `Component.byte_size` = `ceil(size / 8)`. -/
def elemByteSize (e : ElemR) : Nat := (elemSize e + 7) / 8

/-- `MappingElement.__eq__`: address, name, array size/space, and the
component's size and name. -/
def elemEq (self other : ElemR) : Bool :=
  self.address == other.address && self.name == other.name &&
  self.arraySize == other.arraySize && self.arraySpace == other.arraySpace &&
  self.compSize == other.compSize && self.compName == other.compName

/-- `MappingElement.overlap`: byte ranges intersect. -/
def elemOverlap (self other : ElemR) : Bool :=
  if other.address < self.address then
    other.address + elemByteSize other > self.address
  else
    self.address + elemByteSize self > other.address

/-- One concrete layout of a peripheral.  Its name stays `None` until
`finalize` assigns `MAP<i>`. -/
structure MappingR where
  name : Option String
  elements : List ElemR
  deriving DecidableEq, Repr, Inhabited

/-- Modelled from the spec: `PeripheralMapping` membership (`element in m`) —
the mapping holds an element equal to it (`MappingElement.__eq__`). -/
def mappingContains (m : MappingR) (e : ElemR) : Bool :=
  m.elements.any (fun x => elemEq x e)

/-- Modelled from the spec: `PeripheralMapping.has_room_for` — the element
does not overlap any element of the mapping. -/
def has_room_for (m : MappingR) (e : ElemR) : Bool :=
  m.elements.all (fun x => !(elemOverlap e x))

/-- Modelled from the spec: `PeripheralMapping.add_element` appends the
element to the mapping's layout. -/
def add_element (m : MappingR) (e : ElemR) : MappingR :=
  { m with elements := m.elements ++ [e] }

/-- Modelled from the spec: `MappingElement.inter_svd_merge` reconciles an
equal element by taking the union of the chipsets. -/
def elemInterSvdMerge (x e : ElemR) : ElemR :=
  { x with chips := x.chips ++ e.chips.filter (· ∉ x.chips) }

/-- Modelled from the spec: merging an equal placement into a mapping —
`m[element].inter_svd_merge(element)` applied to the first equal element. -/
def mappingMergeEqual (m : MappingR) (e : ElemR) : MappingR :=
  { m with elements :=
      match m.elements.findIdx? (fun x => elemEq x e) with
      | some i => m.elements.set i (elemInterSvdMerge (m.elements.get! i) e)
      | none => m.elements }

/-- A register as seen from the placement logic: name and bit size. -/
structure RegEntry where
  name : Option String
  size : Nat
  deriving DecidableEq, Repr

/-- The peripheral state that `add_placement` reads and writes. -/
structure PeriphR where
  registers : List RegEntry
  mappings : List MappingR
  deriving DecidableEq, Repr

/-- The mapping scan of `add_placement`: return on the first mapping holding
an equal element; otherwise remember the index of every mapping with room —
`mapping = m` without a `break`, so the *last* such index survives. -/
def placementScan (ms : List MappingR) (e : ElemR) (i : Nat)
    (roomIdx : Option Nat) : Except PyErr (Option Nat ⊕ Nat) :=
  match ms with
  | [] => .ok (.inl roomIdx)
  | m :: rest =>
    if mappingContains m e then .ok (.inr i)
    else if has_room_for m e then placementScan rest e (i + 1) (some i)
    else placementScan rest e (i + 1) roomIdx

/-- `Peripheral.add_placement`, translated from the source:

```python
element.component = self[element.component.name]
for m in self.mappings :
    if element in m :
        m[element].inter_svd_merge(element)
        return
    elif m.has_room_for(element) :
        mapping = m
if mapping is None :
    mapping = PeripheralMapping()
    mapping.parent = self
    self.mappings.append(mapping)
    self.edited = True
mapping.add_element(element)
```

When no mapping has room, the creation branch runs: `mapping.parent = self`
re-enters `Component.add_child`; with an existing (necessarily unnamed,
pre-finalize) mapping in `self.mappings`, Python's `mapping in self` finds a
name-equal (`None == None`) mapping and `self.mappings[item]` — a list
indexed by an object — raises `TypeError`; with no mapping at all the branch
survives until `self.edited = True`, an assignment to the setter-less
`edited` property, which raises `AttributeError`. -/
def add_placement (P : PeriphR) (e : ElemR) : Except PyErr PeriphR := do
  -- element.component = self[element.component.name]
  let comp ← match e.compName with
    | some nm =>
      match P.registers.find? (fun r => r.name == some nm) with
      | some r => Except.ok r
      | none => Except.error PyErr.keyError
    | none => Except.error PyErr.typeError
  let e := { e with compName := comp.name, compSize := comp.size }
  match ← placementScan P.mappings e 0 none with
  | .inr i =>
    .ok { P with mappings :=
            P.mappings.set i (mappingMergeEqual (P.mappings.get! i) e) }
  | .inl (some i) =>
    .ok { P with mappings :=
            P.mappings.set i (add_element (P.mappings.get! i) e) }
  | .inl none =>
    if P.mappings.any (fun m => m.name == (none : Option String)) then
      .error .typeError
    else
      .error .attributeError

/-! ## The component tree (`component.py`)

The Python object graph is modelled as a heap: a list of objects addressed by
index, with parent back-references and child id lists.  Object identity
(`is`) is id equality.  All recursive operations take explicit fuel; every
recursive call strictly decreases it, and running out of fuel is a distinct
error that no genuine execution produces.  An exception aborts the operation
and discards the intermediate heap (no caller in the modelled code catches).
-/

structure Obj where
  name : Option String
  brief : Option String
  chips : List ChipR
  parent : Option Nat
  children : Option (List Nat)
  size : Nat
  edited : Bool
  lock : Bool
  deriving DecidableEq, Repr, Inhabited

abbrev Heap := List Obj

/-- Dereference an object id. -/
def hGet (h : Heap) (i : Nat) : Except PyErr Obj :=
  match h.get? i with
  | some o => .ok o
  | none => .error .attributeError

def hSet (h : Heap) (i : Nat) (o : Obj) : Heap := h.set i o

def editedOf (h : Heap) (i : Nat) : Bool :=
  ((h.get? i).map (·.edited)).getD false

def lockOf (h : Heap) (i : Nat) : Bool :=
  ((h.get? i).map (·.lock)).getD false

def childrenOf (h : Heap) (i : Nat) : Option (Option (List Nat)) :=
  (h.get? i).map (·.children)

def parentOf (h : Heap) (i : Nat) : Option (Option Nat) :=
  (h.get? i).map (·.parent)

def nameOf (h : Heap) (i : Nat) : Option (Option String) :=
  (h.get? i).map (·.name)

/-- The child ids an object iterates over (`[]` both for a missing object and
for a `None` children attribute, which Python's `for child in self` also
skips). -/
def kidsOf (h : Heap) (i : Nat) : List Nat :=
  ((childrenOf h i).getD none).getD []

/-- Everything of an object except its `edited` flag; operations that only
track edits preserve this projection. -/
def shapeOf (h : Heap) (i : Nat) :
    Option (Option String × Option String × List ChipR × Option Nat ×
            Option (List Nat) × Nat × Bool) :=
  (h.get? i).map (fun o =>
    (o.name, o.brief, o.chips, o.parent, o.children, o.size, o.lock))

/-- Everything of an object except its `edited` flag and chip set;
`add_chips` preserves this projection. -/
def shapeNCOf (h : Heap) (i : Nat) :
    Option (Option String × Option String × Option Nat ×
            Option (List Nat) × Nat × Bool) :=
  (h.get? i).map (fun o =>
    (o.name, o.brief, o.parent, o.children, o.size, o.lock))

/-- Set-union of chip lists (`self.chips.update(other.chips)`). -/
def chipsUnion (a b : List ChipR) : List ChipR := a ++ b.filter (· ∉ a)

/-- `Component.invalidate`: assert the lock, then set `edited` and propagate
to the parent until an already-edited node is met. -/
def invalidate (fuel : Nat) (i : Nat) (h : Heap) : Except PyErr Heap :=
  match fuel with
  | 0 => .error .outOfFuel
  | fuel + 1 => do
    let o ← hGet h i
    if o.lock then .error .assertionError
    else if o.edited then .ok h
    else
      let h := hSet h i { o with edited := true }
      match o.parent with
      | some p => invalidate fuel p h
      | none => .ok h

/-- Work items for the recursive tree traversals (`validate`, `finalize`); a
list item processes the remaining children in order. -/
inductive TOp where
  | tValidate (i : Nat)
  | tValidateList (cs : List Nat)
  | tFinalize (i : Nat)
  | tFinalizeList (cs : List Nat)

/-- Interpreter for `TOp`: `Component.validate` clears `edited` on an edited
node and recurses into the children (`for child in self` yields nothing when
`children is None`); `Component.finalize` sets the lock, then finalizes
`self.children` — raising `TypeError` on a leaf whose children attribute is
`None`. -/
def tExec (fuel : Nat) (op : TOp) (h : Heap) : Except PyErr Heap :=
  match fuel with
  | 0 => .error .outOfFuel
  | fuel + 1 =>
    match op with
    | .tValidate i => do
      let o ← hGet h i
      if o.edited then
        let h := hSet h i { o with edited := false }
        match o.children with
        | none => .ok h
        | some cs => tExec fuel (.tValidateList cs) h
      else .ok h
    | .tValidateList cs =>
      match cs with
      | [] => .ok h
      | c :: rest => do
        let h ← tExec fuel (.tValidate c) h
        tExec fuel (.tValidateList rest) h
    | .tFinalize i => do
      let o ← hGet h i
      let h := hSet h i { o with lock := true }
      match o.children with
      | none => .error .typeError
      | some cs => tExec fuel (.tFinalizeList cs) h
    | .tFinalizeList cs =>
      match cs with
      | [] => .ok h
      | c :: rest => do
        let h ← tExec fuel (.tFinalize c) h
        tExec fuel (.tFinalizeList rest) h

/-- `Component.validate` (entry point). -/
def validate (fuel : Nat) (i : Nat) (h : Heap) : Except PyErr Heap :=
  tExec fuel (.tValidate i) h

/-- `Component.finalize` (entry point). -/
def finalize (fuel : Nat) (i : Nat) (h : Heap) : Except PyErr Heap :=
  tExec fuel (.tFinalize i) h

/-- The `name` setter: store the new name, then invalidate (the identifier
check only logs). -/
def setName (fuel : Nat) (i : Nat) (new : Option String) (h : Heap) :
    Except PyErr Heap := do
  let o ← hGet h i
  if o.name = none ∨ new ≠ o.name then
    invalidate fuel i (hSet h i { o with name := new })
  else .ok h

/-- The `size` setter of `Field`/`Register`: store, then invalidate
(unconditionally). -/
def setSize (fuel : Nat) (i : Nat) (n : Nat) (h : Heap) : Except PyErr Heap := do
  let o ← hGet h i
  invalidate fuel i (hSet h i { o with size := n })

/-- `Component.add_chips`: when the new chips are not already contained,
invalidate, extend the chip set and recurse into `self.parent` — with no
guard, so a parentless component raises `AttributeError`
(`None.add_chips`). -/
def addChips (fuel : Nat) (i : Nat) (chips : List ChipR) (h : Heap) :
    Except PyErr Heap :=
  match fuel with
  | 0 => .error .outOfFuel
  | fuel + 1 => do
    let o ← hGet h i
    if ¬ chips.all (· ∈ o.chips) then do
      let h ← invalidate fuel i h
      let o' ← hGet h i
      let h := hSet h i { o' with chips := chipsUnion o'.chips chips }
      match o.parent with
      | some p => addChips fuel p chips h
      | none => .error .attributeError
    else .ok h

/-- Two objects are name-equal (`Component.__eq__`). -/
def sameName (h : Heap) (a b : Nat) : Except PyErr Bool := do
  let oa ← hGet h a
  let ob ← hGet h b
  .ok (oa.name == ob.name)

/-- `Component.__getitem__` on a component key: first child that is the item
or compares equal to it; `Component.__contains__` converts the `KeyError`
into `False`. -/
def findEqChild (h : Heap) (cs : List Nat) (target : Nat) :
    Except PyErr (Option Nat) :=
  match cs with
  | [] => .ok none
  | c :: rest => do
    if c = target then .ok (some c)
    else do
      let eq ← sameName h c target
      if eq then .ok (some c) else findEqChild h rest target

/-- `list.remove(self)`: drop the first entry that is identical or
name-equal; `none` models the `ValueError` of a missing element. -/
def removeFirstEq (h : Heap) (cs : List Nat) (target : Nat) :
    Except PyErr (Option (List Nat)) :=
  match cs with
  | [] => .ok none
  | c :: rest => do
    if c = target then .ok (some rest)
    else do
      let eq ← sameName h c target
      if eq then .ok (some rest)
      else do
        let r ← removeFirstEq h rest target
        match r with
        | some cs' => .ok (some (c :: cs'))
        | none => .ok none

/-- Work items for the mutually recursive hierarchy operations
(`set_parent` / `add_child` / `absorb` and `absorb`'s child loop). -/
inductive HOp where
  | hSetParent (childId : Nat) (parent? : Option Nat)
  | hAddChild (selfId childId : Nat)
  | hAbsorb (selfId otherId : Nat)
  | hAbsorbLoop (selfId otherId i : Nat)

/-- Interpreter for `HOp`.

* `Component.set_parent`: a no-op when the parent is unchanged; otherwise
  detach from the old parent (invalidating it), install and invalidate the
  new parent link, and register with the new parent via `add_child`.
* `Component.add_child`: when no existing child equals the new one,
  invalidate, append it, merge its chips upward and set its parent;
  otherwise absorb it into the equal child.
* `Component.absorb`: keep the brief, merge chip sets, then walk `other`'s
  live child list — adopting a child removes it from that list
  mid-iteration, so the Python `for` iterator (modelled by the index case)
  skips the following child. -/
def hExec (fuel : Nat) (op : HOp) (h : Heap) : Except PyErr Heap :=
  match fuel with
  | 0 => .error .outOfFuel
  | fuel + 1 =>
    match op with
    | .hSetParent childId parent? => do
      let c ← hGet h childId
      if parent? = c.parent then .ok h
      else do
        let h ← match c.parent with
          | some oldp => do
            let po ← hGet h oldp
            match po.children with
            | none => .error .attributeError   -- None.remove
            | some cs => do
              let r ← removeFirstEq h cs childId
              match r with
              | some cs' =>
                invalidate fuel oldp
                  (hSet h oldp { po with children := some cs' })
              | none => .error .valueError
          | none => pure h
        let co ← hGet h childId
        let h := hSet h childId { co with parent := parent? }
        let h ← invalidate fuel childId h
        match parent? with
        | some p => hExec fuel (.hAddChild p childId) h
        | none => .ok h
    | .hAddChild selfId childId => do
      let so ← hGet h selfId
      let found ← findEqChild h (so.children.getD []) childId
      match found with
      | none => do
        let h ← invalidate fuel selfId h
        let so' ← hGet h selfId
        let h := hSet h selfId
          { so' with children := some (so'.children.getD [] ++ [childId]) }
        let co ← hGet h childId
        let h ← addChips fuel selfId co.chips h
        hExec fuel (.hSetParent childId (some selfId)) h
      | some eqc => hExec fuel (.hAbsorb eqc childId) h
    | .hAbsorb selfId otherId =>
      if otherId = selfId then .ok h
      else do
        let so ← hGet h selfId
        let oo ← hGet h otherId
        let h :=
          if so.brief = none ∧ oo.brief ≠ none then
            hSet h selfId { so with brief := oo.brief }
          else h
        let h ← addChips fuel selfId oo.chips h
        hExec fuel (.hAbsorbLoop selfId otherId 0) h
    | .hAbsorbLoop selfId otherId i => do
      let oo ← hGet h otherId
      match oo.children with
      | none => .ok h
      | some cs =>
        if hlt : i < cs.length then do
          let oc := cs.get ⟨i, hlt⟩
          let so ← hGet h selfId
          let found ← findEqChild h (so.children.getD []) oc
          let h ← match found with
            | some sc => hExec fuel (.hAbsorb sc oc) h
            | none => hExec fuel (.hAddChild selfId oc) h
          hExec fuel (.hAbsorbLoop selfId otherId (i + 1)) h
        else .ok h

/-- `Component.set_parent` (entry point). -/
def setParent (fuel : Nat) (childId : Nat) (parent? : Option Nat) (h : Heap) :
    Except PyErr Heap :=
  hExec fuel (.hSetParent childId parent?) h

/-- `Component.add_child` (entry point). -/
def addChild (fuel : Nat) (selfId childId : Nat) (h : Heap) :
    Except PyErr Heap :=
  hExec fuel (.hAddChild selfId childId) h

/-- `Component.absorb` (entry point). -/
def absorb (fuel : Nat) (selfId otherId : Nat) (h : Heap) :
    Except PyErr Heap :=
  hExec fuel (.hAbsorb selfId otherId) h

/-- The inner `while pos_other < len(self.children)` loop of
`merge_children`: identical references are dropped, name-equal children are
absorbed into `child_ref` and dropped, others advance the index. -/
def mergeInner (fuel : Nat) (selfId posRef childRef posOther : Nat) (h : Heap) :
    Except PyErr Heap :=
  match fuel with
  | 0 => .error .outOfFuel
  | fuel + 1 => do
    let o ← hGet h selfId
    let cs := o.children.getD []
    if hlt : posOther < cs.length then do
      let childOther := cs.get ⟨posOther, hlt⟩
      if childOther = childRef then
        mergeInner fuel selfId posRef childRef posOther
          (hSet h selfId { o with children := some (cs.eraseIdx posOther) })
      else do
        let eq ← sameName h childOther childRef
        if eq then do
          let h ← absorb fuel childRef childOther h
          let o' ← hGet h selfId
          let cs' := o'.children.getD []
          mergeInner fuel selfId posRef childRef posOther
            (hSet h selfId { o' with children := some (cs'.eraseIdx posOther) })
        else mergeInner fuel selfId posRef childRef (posOther + 1) h
    else .ok h

/-- The outer `while pos_ref < len(self.children)-1` loop of
`merge_children`. -/
def mergeOuter (fuel : Nat) (selfId posRef : Nat) (h : Heap) :
    Except PyErr Heap :=
  match fuel with
  | 0 => .error .outOfFuel
  | fuel + 1 => do
    let o ← hGet h selfId
    let cs := o.children.getD []
    if posRef < cs.length - 1 then do
      let childRef := cs.get! posRef
      let h ← mergeInner fuel selfId posRef childRef (posRef + 1) h
      mergeOuter fuel selfId (posRef + 1) h
    else .ok h

/-- `Component.merge_children`: nothing to do on an unedited component;
on an edited one, `len(self.children)` raises `TypeError` when the children
attribute is `None` (the `Field` case), else run the two merge loops. -/
def mergeChildren (fuel : Nat) (selfId : Nat) (h : Heap) : Except PyErr Heap :=
  match fuel with
  | 0 => .error .outOfFuel
  | fuel + 1 => do
    let o ← hGet h selfId
    if o.edited then
      match o.children with
      | none => .error .typeError
      | some _ => mergeOuter fuel selfId 0 h
    else .ok h

/-! ## Correctors and the fixpoint loop (`corrector.py`,
`Component.apply_fixes`)

A corrector is an optional rewrite action plus pattern-indexed
sub-correctors.  The rewrite actions are drawn from the mutation API used by
the repository's corrector tables (`modify`): renaming and resizing, both of
which invalidate the component through the normal setters. -/

inductive CAction where
  | actSetName (s : String)
  | actSetSize (n : Nat)
  | actNop
  deriving DecidableEq, Repr

inductive CorrectorT where
  | node (function : Option CAction) (children : List (String × CorrectorT))

/-- `Corrector.sub_correctors` on a component: sub-correctors whose pattern
`fnmatch`es the component name (`""` when unnamed), in table order. -/
def subCorrectors (c : CorrectorT) (nm : Option String) : List CorrectorT :=
  match c with
  | .node _ children =>
    (children.filter (fun kc => fnmatch (nm.getD "") kc.1)).map (·.2)

/-- `Corrector.__contains__` for a component. -/
def containsCorr (c : CorrectorT) (nm : Option String) : Bool :=
  match c with
  | .node _ children => children.any (fun kc => fnmatch (nm.getD "") kc.1)

/-- `Corrector.__call__`: run the action through the mutation API. -/
def runAction (fuel : Nat) (a : Option CAction) (i : Nat) (h : Heap) :
    Except PyErr Heap :=
  match a with
  | none => .ok h
  | some (.actSetName s) => setName fuel i (some s) h
  | some (.actSetSize n) => setSize fuel i n h
  | some .actNop => .ok h

/-- The iteration cap of `Component.apply_fixes` (`for _ in range(0, 100)`). -/
def fixCap : Nat := 100

/-- Work items for `Component.apply_fixes` and its nested loops. -/
inductive FOp where
  | fApply (corr : CorrectorT) (i : Nat)
  | fLoop (corr : CorrectorT) (i n : Nat)
  | fBody (corr : CorrectorT) (i : Nat)
  | fSubs (subs : List CorrectorT) (i : Nat)
  | fChildren (sub : CorrectorT) (i idx : Nat)

/-- Interpreter for `FOp`, the translation of `Component.apply_fixes`:

* `fApply`: up to `fixCap` iterations of validate → run matching correctors
  (recursing into children) → `merge_children`, stopping as soon as the
  component is no longer edited; `FixConvergenceError` when the cap is
  exhausted (the `for ... else` raise).
* `fBody`: one iteration of the loop.
* `fSubs`: `for corrector in parent_corrector[self]` — run each matching
  sub-corrector, then apply it to every child.
* `fChildren`: `for child in self : child.apply_fixes(corrector)` over the
  live child list. -/
def fExec (fuel : Nat) (op : FOp) (h : Heap) : Except PyErr Heap :=
  match fuel with
  | 0 => .error .outOfFuel
  | fuel + 1 =>
    match op with
    | .fApply corr i => fExec fuel (.fLoop corr i fixCap) h
    | .fLoop corr i n =>
      match n with
      | 0 => .error .fixConvergenceError
      | n + 1 => do
        let h' ← fExec fuel (.fBody corr i) h
        if editedOf h' i then fExec fuel (.fLoop corr i n) h' else .ok h'
    | .fBody corr i => do
      let h ← validate fuel i h
      let o ← hGet h i
      let h ←
        if containsCorr corr o.name then
          fExec fuel (.fSubs (subCorrectors corr o.name) i) h
        else pure h
      mergeChildren fuel i h
    | .fSubs subs i =>
      match subs with
      | [] => .ok h
      | sub :: rest => do
        let act := match sub with | .node f _ => f
        let h ← runAction fuel act i h
        let h ← fExec fuel (.fChildren sub i 0) h
        fExec fuel (.fSubs rest i) h
    | .fChildren sub i idx => do
      let o ← hGet h i
      match o.children with
      | none => .ok h
      | some cs =>
        if hlt : idx < cs.length then do
          let h ← fExec fuel (.fApply sub (cs.get ⟨idx, hlt⟩)) h
          fExec fuel (.fChildren sub i (idx + 1)) h
        else .ok h

/-- `Component.apply_fixes` (entry point). -/
def applyFixes (fuel : Nat) (corr : CorrectorT) (i : Nat) (h : Heap) :
    Except PyErr Heap :=
  fExec fuel (.fApply corr i) h

/-- One iteration of the `apply_fixes` loop (entry point). -/
def afBody (fuel : Nat) (corr : CorrectorT) (i : Nat) (h : Heap) :
    Except PyErr Heap :=
  fExec fuel (.fBody corr i) h

/-- `k` successive iterations of the `apply_fixes` body, with no exit test:
the reference against which the loop's convergence behaviour is stated.  The
fuel argument mirrors the loop's own bookkeeping (one unit per iteration);
it is irrelevant to any real execution. -/
def afIterate (fuel : Nat) (corr : CorrectorT) (i : Nat) :
    Nat → Heap → Except PyErr Heap
  | 0, h => .ok h
  | k + 1, h => do
    let h' ← afBody fuel corr i h
    afIterate (fuel - 1) corr i k h'

/-- Whether the component is still marked edited after `k` body iterations
(`false` as well when some iteration raised). -/
def editedAfter (fuel : Nat) (corr : CorrectorT) (i k : Nat) (h : Heap) :
    Bool :=
  match afIterate fuel corr i k h with
  | .ok h' => editedOf h' i
  | .error _ => false

/-- Every one of the first `n` loop iterations completes and leaves the
component marked edited — the situation in which the `for ... else` raise of
`apply_fixes` fires. -/
def allEditedThrough (fuel : Nat) (corr : CorrectorT) (i n : Nat) (h : Heap) :
    Prop :=
  ∀ k, 1 ≤ k → k ≤ n → editedAfter fuel corr i k h = true

/-- Some iteration within the first `n` itself raises
`FixConvergenceError` (from a descendant's `apply_fixes`), every earlier
iteration having left the component edited. -/
def nestedFixFail (fuel : Nat) (corr : CorrectorT) (i n : Nat) (h : Heap) :
    Prop :=
  ∃ k, 1 ≤ k ∧ k ≤ n ∧
    (∀ j, 1 ≤ j → j < k → editedAfter fuel corr i j h = true) ∧
    afIterate fuel corr i k h = .error .fixConvergenceError

/-! ## Specification-side helpers used by the theorem statements -/

/-- `pat` occurs as a contiguous substring of `s`. -/
def strMentions (s pat : String) : Bool :=
  (List.range (s.toList.length + 1)).any
    (fun k => ((s.toList.drop k).take pat.toList.length) == pat.toList)

/-- Index of the last mapping that has room for `e`, if any. -/
def lastRoomIdx : List MappingR → ElemR → Option Nat
  | [], _ => none
  | m :: rest, e =>
    match lastRoomIdx rest e with
    | some j => some (j + 1)
    | none => if has_room_for m e then some 0 else none

/-- The raw (not upper-cased) family of a chip name, defined when the name
matches `STM32*`. -/
def famOf (c : ChipR) : Option String :=
  match get_family c.name with
  | .ok f => some f
  | .error _ => none

/-- A chip name acceptable to `Chip.get_family` whose family prefix is
unchanged by upper-casing (all chip defines produced by `Chip.normalize`
satisfy this). -/
def chipNameOk (c : ChipR) : Bool :=
  match get_family c.name with
  | .ok f => strUpper f == f
  | .error _ => false

/-- Family `f` (as a family of the reference list `R`) is wholly contained in
`S`: some chip of `R` has that family, and every chip of `R` with that family
belongs to `S`. -/
def whollyContained (S R : List ChipR) (f : String) : Prop :=
  (∃ c ∈ R, famOf c = some f) ∧ ∀ c ∈ R, famOf c = some f → c ∈ S

/-- What the chip loop of `defined_list` emits for one chip, given the
matched family keys. -/
def chipEmit (keys : List String) (c : ChipR) : Option DefTok :=
  match get_family c.name with
  | .ok f => if keys.contains f then none else some (.chip c.name)
  | .error _ => none

/-! ### Concrete scenarios used by counterexamples and witnesses -/

/-- A field occupying bit 0 (`EN@0[1]`). -/
def fEN : FieldR := ⟨some "EN", 0, 1⟩

/-- Register listing `EN` twice. -/
def regDup : RegisterR := ⟨[fEN, fEN]⟩

/-- Register listing `EN` once. -/
def regSingle : RegisterR := ⟨[fEN]⟩

/-- Scenario for C5: `P1` (id 0) childless, `P2` (id 1) holding two distinct
registers `A` (id 2) and `B` (id 3); empty chip sets, nothing edited. -/
def c5Heap : Heap :=
  [ ⟨some "P1", none, [], none, none, 0, false, false⟩,
    ⟨some "P2", none, [], none, some [2, 3], 0, false, false⟩,
    ⟨some "A", none, [], some 1, none, 0, false, false⟩,
    ⟨some "B", none, [], some 1, none, 0, false, false⟩ ]

/-- Scenario for C6: `p` (id 0, validated) with child `d` (id 1) named `X`;
`c` (id 2), parentless, already edited, also named `X`. -/
def c6Heap : Heap :=
  [ ⟨some "P", none, [], none, some [1], 0, false, false⟩,
    ⟨some "X", none, [], some 0, none, 0, false, false⟩,
    ⟨some "X", none, [], none, none, 0, true, false⟩ ]

/-- Scenario for C8: one root component whose child list became empty (as
after its only child was re-parented away), so `finalize` succeeds on it. -/
def c8Heap : Heap :=
  [ ⟨some "P", none, [], none, some [], 0, true, false⟩ ]

/-- Scenario for C3: a peripheral owning registers `A` and `B` and two
mappings, each holding only a copy of `A`'s placement at address 0. -/
def c3ElemA : ElemR := ⟨some "A", 0, 0, 0, some "A", 32, []⟩

/-- The placement of register `B` at address 100 to be inserted. -/
def c3ElemB : ElemR := ⟨some "B", 100, 0, 0, some "B", 0, []⟩

def c3Periph : PeriphR :=
  { registers := [⟨some "A", 32⟩, ⟨some "B", 32⟩],
    mappings := [⟨none, [c3ElemA]⟩, ⟨none, [c3ElemA]⟩] }

/-- The element `c3ElemB` after `add_placement` resolves its component
against register `B` of `c3Periph`. -/
def c3ElemB' : ElemR := ⟨some "B", 100, 0, 0, some "B", 32, []⟩

/-- A reference chip for C2. -/
def c2Chip : ChipR := ⟨"STM32F401xE"⟩

/-- Scenario for C4/C10: a parent (id 0) with one child (id 1) whose children
attribute is an empty list; the corrector matched to the child always
re-assigns its size, so the child never stabilises. -/
def c4Heap : Heap :=
  [ ⟨some "P", none, [], none, some [1], 0, true, false⟩,
    ⟨some "C", none, [], some 0, some [], 0, true, false⟩ ]

/-- The pathological corrector of Scenario F: at the parent level it matches
everything and does nothing itself, but its sub-corrector resizes every child
on every pass. -/
def c4SubCorr : CorrectorT := .node (some (.actSetSize 0)) []

def c4Corr : CorrectorT := .node none [("*", .node none [("*", c4SubCorr)])]

/-- C10 witness scenario: a lone field (children attribute `None`) whose
matching corrector re-assigns its size. -/
def c10Heap : Heap :=
  [ ⟨some "F", none, [], none, none, 0, false, false⟩ ]

def c10Corr : CorrectorT := .node none [("*", .node (some (.actSetSize 7)) [])]

/-- `c10Heap`'s field already marked edited. -/
def c10HeapEdited : Heap :=
  [ ⟨some "F", none, [], none, none, 0, true, false⟩ ]

/-- C2 witness chipsets: three reference chips, two of family `STM32F4` and
one of family `STM32L0`; the chipset contains exactly the two `F4` chips. -/
def c2F4a : ChipR := ⟨"STM32F401xE"⟩
def c2F4b : ChipR := ⟨"STM32F407VG"⟩
def c2L0a : ChipR := ⟨"STM32L053C8"⟩
def c2R : List ChipR := [c2F4a, c2F4b, c2L0a]
def c2S : List ChipR := [c2F4a, c2F4b]

/-- C3 witness for the no-room branch: the new element collides with every
mapping. -/
def c3ElemClash : ElemR := ⟨some "B", 0, 0, 0, some "B", 0, []⟩

/-- A peripheral with no mapping at all (no-room branch then hits the
`edited` property assignment). -/
def c3PeriphNoMap : PeriphR :=
  { registers := [⟨some "B", 32⟩], mappings := [] }

/-- C4 witness scenario: one component, initially edited, matched by no
corrector: the first iteration validates it and the loop exits normally. -/
def c4StableHeap : Heap :=
  [ ⟨some "Q", none, [], none, some [], 0, true, false⟩ ]

def c4StableHeapDone : Heap :=
  [ ⟨some "Q", none, [], none, some [], 0, false, false⟩ ]

def c4NoMatchCorr : CorrectorT := .node none []

/-- C6 witness scenario: `c` (id 2, named `X`) moves from `q` (id 0) to `p`
(id 1) whose only child `d` (id 3) has a different name. -/
def c6WHeap : Heap :=
  [ ⟨some "Q", none, [], none, some [2], 0, false, false⟩,
    ⟨some "P", none, [], none, some [3], 0, false, false⟩,
    ⟨some "X", none, [], some 0, none, 0, true, false⟩,
    ⟨some "Y", none, [], some 1, none, 0, false, false⟩ ]

/-- The heap produced by `c.set_parent(p)` on `c6WHeap`: both the old parent
`q` (id 0) and the new parent `p` (id 1) end up edited. -/
def c6WHeap' : Heap :=
  [ ⟨some "Q", none, [], none, some [], 0, true, false⟩,
    ⟨some "P", none, [], none, some [3, 2], 0, true, false⟩,
    ⟨some "X", none, [], some 1, none, 0, true, false⟩,
    ⟨some "Y", none, [], some 1, none, 0, false, false⟩ ]

/-- The C8 heap after `finalize`. -/
def c8HeapLocked : Heap :=
  [ ⟨some "P", none, [], none, some [], 0, true, true⟩ ]

/-!
# Theorems
-/

/-- C1: `Register.absorb` on two registers with different names (`CRy` and
`CRz` included) never reaches the renaming logic: `merge_names` reads the
unbound `name_1`/`name_2` and raises `NameError` on every call. -/
theorem claim_C1 (fuel : Nat) (parentNames : List (Option String))
    (n1 n2 : String) (hne : n1 ≠ n2) :
    registerAbsorbRename fuel parentNames (some n1) (some n2) =
      .error .nameError := by
  simp [registerAbsorbRename, hne, merge_names, Bind.bind, Except.bind]

/-- Witness for C1 at the spec's Scenario E input. -/
theorem claim_C1_witness :
    registerAbsorbRename 10 [some "CRy", some "CRz"] (some "CRy")
      (some "CRz") = .error .nameError :=
  claim_C1 10 [some "CRy", some "CRz"] "CRy" "CRz" (by decide)

/-- C9: `fill_bit_mask` stops one bit short of the field's range.  A field at
position 0 of size 1 (occupying exactly bit 0) leaves the mask untouched, and
a field at position 4 of size 3 (occupying bits 4, 5 and 6) sets only bits 4
and 5. -/
theorem claim_C9 :
    fill_bit_mask 0 1 [false] = .ok [false] ∧
    fill_bit_mask 4 3 (List.replicate 8 false) =
      .ok [false, false, false, false, true, true, false, false] := by
  exact ⟨by decide, by decide⟩

/-- C5: `absorb` is not idempotent.  Absorbing a two-child component removes
the first child from `other`'s list mid-iteration, so the second child is
skipped; a second `absorb` call adopts it.  After one call `P1` holds only
`A` (id 2) and `P2` still holds `B` (id 3); after two calls `P1` holds both
and `P2` none. -/
theorem claim_C5 :
    (do
      let h₁ ← absorb 30 0 1 c5Heap
      pure (childrenOf h₁ 0, childrenOf h₁ 1)) =
        Except.ok (some (some [2]), some (some [3])) ∧
    (do
      let h₁ ← absorb 30 0 1 c5Heap
      let h₂ ← absorb 30 0 1 h₁
      pure (childrenOf h₂ 0, childrenOf h₂ 1)) =
        Except.ok (some (some [2, 3]), some (some [])) := by
  exact ⟨by decide, by decide⟩

/-- C7 counterexample: `Register.__eq__` is mutual containment, not multiset
equality — a register listing the same field twice *is* equal to one listing
it once, although the two field multisets differ. -/
theorem claim_C7_counterexample :
    registerEq regDup regSingle = true ∧
    (regDup.fields : Multiset FieldR) ≠ (regSingle.fields : Multiset FieldR) := by
  exact ⟨by decide, by decide⟩

/-- Field equality is structure equality of `(name, position, size)`. -/
theorem fieldEq_iff (f g : FieldR) : fieldEq f g = true ↔ f = g := by
  cases f; cases g
  simp [fieldEq, FieldR.mk.injEq]
  tauto

/-- C7 amended: two registers compare equal exactly when they have the same
*set* of fields (duplicates are immaterial). -/
theorem claim_C7_amended (r1 r2 : RegisterR) :
    registerEq r1 r2 = true ↔ r1.fields.toFinset = r2.fields.toFinset := by
  simp only [registerEq, registerContains, Bool.and_eq_true, List.all_eq_true,
    List.any_eq_true, Finset.ext_iff, List.mem_toFinset, fieldEq_iff]
  constructor
  · rintro ⟨h1, h2⟩ a
    constructor
    · intro ha
      obtain ⟨b, hb, hba⟩ := h1 a ha
      exact hba ▸ hb
    · intro ha
      obtain ⟨b, hb, hba⟩ := h2 a ha
      exact hba ▸ hb
  · intro hiff
    exact ⟨fun a ha => ⟨a, (hiff a).1 ha, rfl⟩, fun a ha => ⟨a, (hiff a).2 ha, rfl⟩⟩

/-- C8 counterexample: mutating a finalized component raises `AssertionError`
(the bare `assert` in `invalidate`), not the `LockedComponentError` named by
the specification — no such exception exists in the code base. -/
theorem claim_C8_counterexample :
    (do
      let h₁ ← finalize 5 0 c8Heap
      setName 5 0 (some "B") h₁) = Except.error PyErr.assertionError ∧
    PyErr.assertionError ≠ PyErr.lockedComponentError := by
  exact ⟨by decide, by decide⟩

/-- C2 counterexample: when the chipset contains every chip of the reference
(`self >= reference_chipset`), `defined_list` returns the literal `"1"` and
emits no `defined(...)` token at all, although every family of the reference
is then wholly contained. -/
theorem claim_C2_counterexample :
    defined_list [c2Chip] [c2Chip] 5 "    " = .ok "1" ∧
    whollyContained [c2Chip] [c2Chip] "STM32F4" ∧
    strMentions "1" "defined(" = false := by
  refine ⟨by decide, ?_, by decide⟩
  exact ⟨⟨c2Chip, by decide, by decide⟩, by decide⟩

/-- C3 counterexample: with two mappings that both have room, the element
lands in the *last* one (`mapping = m` has no `break`), not the first; and
when no mapping has room the creation branch raises (`TypeError` through
`Peripheral.__getitem__` when a mapping exists, `AttributeError` on the
setter-less `edited` property when none does) instead of inserting into a
fresh mapping. -/
theorem claim_C3_counterexample :
    add_placement c3Periph c3ElemB =
      .ok { registers := [⟨some "A", 32⟩, ⟨some "B", 32⟩],
            mappings := [⟨none, [c3ElemA]⟩, ⟨none, [c3ElemA, c3ElemB']⟩] } ∧
    add_placement c3Periph c3ElemClash = .error .typeError ∧
    add_placement c3PeriphNoMap c3ElemClash = .error .attributeError := by
  exact ⟨by decide, by decide, by decide⟩

/-- C6 counterexample: re-parenting an already-edited component `c` onto a
component `p` that has a name-equal child does *not* set `p`'s edited flag —
`c.invalidate()` stops at the already-edited `c`, and `add_child` takes the
absorb branch without invalidating `p`. -/
theorem claim_C6_counterexample :
    (do
      let h' ← setParent 30 2 (some 0) c6Heap
      pure (editedOf h' 0)) = Except.ok false := by
  decide

set_option maxRecDepth 4000 in
/-- C4 counterexample: a corrector that keeps resizing the child makes the
child's own loop exhaust its 100 iterations; the resulting
`FixConvergenceError` propagates out of the *parent*'s `apply_fixes` although
the parent's corrector loop did not complete 100 iterations — its very first
iteration aborted (`editedAfter ... 1` is false because iteration 1 raised). -/
theorem claim_C4_counterexample :
    applyFixes 200 c4Corr 0 c4Heap = .error .fixConvergenceError ∧
    editedAfter 198 c4Corr 0 1 c4Heap = false := by
  exact ⟨by decide, by decide⟩

/-! ### The `apply_fixes` loop, in general (C4) -/

theorem except_bind_error {α β : Type} (e : PyErr) (f : α → Except PyErr β) :
    (Except.error e : Except PyErr α).bind f = .error e := rfl

theorem except_bind_ok {α β : Type} (a : α) (f : α → Except PyErr β) :
    (Except.ok a : Except PyErr α).bind f = f a := rfl

theorem fExec_zero (op : FOp) (h : Heap) : fExec 0 op h = .error .outOfFuel :=
  rfl

theorem fExec_loop_zero (g : Nat) (corr : CorrectorT) (i : Nat) (h : Heap) :
    fExec (g + 1) (.fLoop corr i 0) h = .error .fixConvergenceError := rfl

theorem fExec_loop_succ (g : Nat) (corr : CorrectorT) (i n : Nat) (h : Heap) :
    fExec (g + 1) (.fLoop corr i (n + 1)) h =
      (fExec g (.fBody corr i) h).bind
        (fun h' => if editedOf h' i then fExec g (.fLoop corr i n) h'
                   else .ok h') := rfl

theorem afIterate_succ (g : Nat) (corr : CorrectorT) (i k : Nat) (h : Heap) :
    afIterate g corr i (k + 1) h =
      (fExec g (.fBody corr i) h).bind (afIterate (g - 1) corr i k) := rfl

theorem afIterate_one (g : Nat) (corr : CorrectorT) (i : Nat) (h : Heap) :
    afIterate g corr i 1 h = fExec g (.fBody corr i) h := by
  rw [afIterate_succ]
  cases fExec g (.fBody corr i) h <;> rfl

theorem editedAfter_one_error (g : Nat) (corr : CorrectorT) (i : Nat)
    (h : Heap) (e : PyErr) (hb : fExec g (.fBody corr i) h = .error e) :
    editedAfter g corr i 1 h = false := by
  unfold editedAfter
  rw [afIterate_one, hb]

theorem editedAfter_one_ok (g : Nat) (corr : CorrectorT) (i : Nat) (h : Heap)
    (h₂ : Heap) (hb : fExec g (.fBody corr i) h = .ok h₂) :
    editedAfter g corr i 1 h = editedOf h₂ i := by
  unfold editedAfter
  rw [afIterate_one, hb]

theorem afIterate_shift (g : Nat) (corr : CorrectorT) (i k : Nat) (h h₂ : Heap)
    (hb : fExec g (.fBody corr i) h = .ok h₂) :
    afIterate g corr i (k + 1) h = afIterate (g - 1) corr i k h₂ := by
  rw [afIterate_succ, hb, except_bind_ok]

theorem editedAfter_shift (g : Nat) (corr : CorrectorT) (i k : Nat)
    (h h₂ : Heap) (hb : fExec g (.fBody corr i) h = .ok h₂) :
    editedAfter g corr i (k + 1) h = editedAfter (g - 1) corr i k h₂ := by
  unfold editedAfter
  rw [afIterate_shift g corr i k h h₂ hb]

/-- The loop of `apply_fixes` raises `FixConvergenceError` exactly when
every one of its `n` iterations leaves the component edited, or some
iteration itself raises that error after an edited prefix. -/
theorem afLoop_error_iff (corr : CorrectorT) (i : Nat) :
    ∀ (n g : Nat) (h : Heap),
      fExec (g + 1) (.fLoop corr i n) h = .error .fixConvergenceError ↔
        allEditedThrough g corr i n h ∨ nestedFixFail g corr i n h := by
  intro n
  induction n with
  | zero =>
    intro g h
    constructor
    · intro _
      exact Or.inl (fun k hk1 hk0 => by omega)
    · intro _
      exact fExec_loop_zero g corr i h
  | succ n ih =>
    intro g h
    rw [fExec_loop_succ]
    cases g with
    | zero =>
      rw [fExec_zero, except_bind_error]
      constructor
      · intro hcon
        exact absurd hcon (by simp)
      · rintro (hall | ⟨k, hk1, hkn, hpre, hit⟩)
        · have h1 := hall 1 (by omega) (by omega)
          rw [editedAfter_one_error 0 corr i h _ (fExec_zero _ _)] at h1
          exact absurd h1 (by simp)
        · match k, hk1 with
          | k + 1, _ =>
            rw [afIterate_succ, fExec_zero, except_bind_error] at hit
            exact absurd hit (by simp)
    | succ g' =>
      cases hb : fExec (g' + 1) (.fBody corr i) h with
      | error e =>
        rw [except_bind_error]
        constructor
        · intro heq
          have he : e = .fixConvergenceError := by
            simpa using heq
          refine Or.inr ⟨1, by omega, by omega, fun j hj1 hj2 => by omega, ?_⟩
          rw [afIterate_one, hb, he]
        · rintro (hall | ⟨k, hk1, hkn, hpre, hit⟩)
          · have h1 := hall 1 (by omega) (by omega)
            rw [editedAfter_one_error _ corr i h e hb] at h1
            exact absurd h1 (by simp)
          · match k, hk1 with
            | 1, _ =>
              rw [afIterate_one, hb] at hit
              exact hit
            | k + 2, _ =>
              have h1 := hpre 1 (by omega) (by omega)
              rw [editedAfter_one_error _ corr i h e hb] at h1
              exact absurd h1 (by simp)
      | ok h₂ =>
        rw [except_bind_ok]
        cases he : editedOf h₂ i with
        | false =>
          rw [if_neg (by simp)]
          constructor
          · intro hcon
            exact absurd hcon (by simp)
          · rintro (hall | ⟨k, hk1, hkn, hpre, hit⟩)
            · have h1 := hall 1 (by omega) (by omega)
              rw [editedAfter_one_ok _ corr i h h₂ hb, he] at h1
              exact absurd h1 (by simp)
            · match k, hk1 with
              | 1, _ =>
                rw [afIterate_one, hb] at hit
                exact absurd hit (by simp)
              | k + 2, _ =>
                have h1 := hpre 1 (by omega) (by omega)
                rw [editedAfter_one_ok _ corr i h h₂ hb, he] at h1
                exact absurd h1 (by simp)
        | true =>
          rw [if_pos rfl, ih g' h₂]
          have hshift : ∀ k, editedAfter (g' + 1) corr i (k + 1) h =
              editedAfter g' corr i k h₂ := by
            intro k
            simpa using editedAfter_shift (g' + 1) corr i k h h₂ hb
          have hishift : ∀ k, afIterate (g' + 1) corr i (k + 1) h =
              afIterate g' corr i k h₂ := by
            intro k
            simpa using afIterate_shift (g' + 1) corr i k h h₂ hb
          constructor
          · rintro (hall | ⟨k, hk1, hkn, hpre, hit⟩)
            · refine Or.inl (fun k hk1 hkn => ?_)
              match k, hk1 with
              | 1, _ =>
                rw [editedAfter_one_ok _ corr i h h₂ hb]
                exact he
              | k + 2, _ =>
                rw [hshift (k + 1)]
                exact hall (k + 1) (by omega) (by omega)
            · refine Or.inr ⟨k + 1, by omega, by omega, ?_, ?_⟩
              · intro j hj1 hjk
                match j, hj1 with
                | 1, _ =>
                  rw [editedAfter_one_ok _ corr i h h₂ hb]
                  exact he
                | j + 2, _ =>
                  rw [hshift (j + 1)]
                  exact hpre (j + 1) (by omega) (by omega)
              · rw [hishift k]
                exact hit
          · rintro (hall | ⟨k, hk1, hkn, hpre, hit⟩)
            · refine Or.inl (fun k hk1 hkn => ?_)
              rw [← hshift k]
              exact hall (k + 1) (by omega) (by omega)
            · match k, hk1 with
              | 1, _ =>
                rw [afIterate_one, hb] at hit
                exact absurd hit (by simp)
              | k + 2, _ =>
                refine Or.inr ⟨k + 1, by omega, by omega, ?_, ?_⟩
                · intro j hj1 hjk
                  rw [← hshift j]
                  exact hpre (j + 1) (by omega) (by omega)
                · rw [← hishift (k + 1)]
                  exact hit

/-- When the component stabilises at iteration `k ≤ n` (every earlier
iteration leaving it edited), the loop returns that state normally. -/
theorem afLoop_ok (corr : CorrectorT) (i : Nat) :
    ∀ (n g k : Nat) (h h' : Heap), 1 ≤ k → k ≤ n →
      (∀ j, 1 ≤ j → j < k → editedAfter g corr i j h = true) →
      afIterate g corr i k h = .ok h' → editedOf h' i = false →
      fExec (g + 1) (.fLoop corr i n) h = .ok h' := by
  intro n
  induction n with
  | zero =>
    intro g k h h' hk1 hkn
    omega
  | succ n ih =>
    intro g k h h' hk1 hkn hpre hit hstab
    rw [fExec_loop_succ]
    match k, hk1 with
    | 1, _ =>
      rw [afIterate_one] at hit
      rw [hit, except_bind_ok, hstab, if_neg (by simp)]
    | k + 2, _ =>
      have h1 := hpre 1 (by omega) (by omega)
      cases hb : fExec g (.fBody corr i) h with
      | error e =>
        rw [editedAfter_one_error _ corr i h e hb] at h1
        exact absurd h1 (by simp)
      | ok h₂ =>
        rw [editedAfter_one_ok _ corr i h h₂ hb] at h1
        rw [except_bind_ok, if_pos h1]
        have hg : g ≠ 0 := by
          intro hg0
          rw [hg0, fExec_zero] at hb
          exact absurd hb (by simp)
        obtain ⟨g', rfl⟩ : ∃ g'', g = g'' + 1 :=
          ⟨g - 1, by omega⟩
        refine ih g' (k + 1) h₂ h' (by omega) (by omega) ?_ ?_ hstab
        · intro j hj1 hjk
          have := hpre (j + 1) (by omega) (by omega)
          rwa [editedAfter_shift (g' + 1) corr i j h h₂ hb,
            Nat.add_sub_cancel] at this
        · have := afIterate_shift (g' + 1) corr i (k + 1) h h₂ hb
          rw [Nat.add_sub_cancel] at this
          rw [← this]
          exact hit

/-- C4 amended: `apply_fixes` raises `FixConvergenceError` exactly when
either all 100 iterations of its own loop complete with the component still
edited, or some iteration itself raises that error out of a descendant's
`apply_fixes`; and when the component stabilises within 100 iterations,
`apply_fixes` returns the stabilised state normally. -/
theorem claim_C4 (f : Nat) (corr : CorrectorT) (i : Nat) (h : Heap) :
    (applyFixes (f + 2) corr i h = .error .fixConvergenceError ↔
      allEditedThrough f corr i fixCap h ∨ nestedFixFail f corr i fixCap h) ∧
    (∀ k h', 1 ≤ k → k ≤ fixCap →
      (∀ j, 1 ≤ j → j < k → editedAfter f corr i j h = true) →
      afIterate f corr i k h = .ok h' → editedOf h' i = false →
      applyFixes (f + 2) corr i h = .ok h') := by
  have hunf : applyFixes (f + 2) corr i h =
      fExec (f + 1) (.fLoop corr i fixCap) h := rfl
  constructor
  · rw [hunf]
    exact afLoop_error_iff corr i fixCap f h
  · intro k h' hk1 hkn hpre hit hstab
    rw [hunf]
    exact afLoop_ok corr i fixCap f k h h' hk1 hkn hpre hit hstab

/-- Witness for C4: a single already-edited component matching no corrector
stabilises at the first iteration and `apply_fixes` returns normally. -/
theorem claim_C4_witness :
    applyFixes 10 c4NoMatchCorr 0 c4StableHeap = .ok c4StableHeapDone :=
  (claim_C4 8 c4NoMatchCorr 0 c4StableHeap).2 1 c4StableHeapDone
    (by omega) (by decide) (fun j hj1 hj2 => by omega) (by decide) (by decide)

/-! ### Heap-structure lemmas for `invalidate`, `add_chips`, `validate` and
`finalize` -/

@[simp] theorem ebind_ok {α β : Type} (a : α) (f : α → Except PyErr β) :
    (Except.ok a : Except PyErr α) >>= f = f a := rfl

@[simp] theorem ebind_err {α β : Type} (e : PyErr) (f : α → Except PyErr β) :
    (Except.error e : Except PyErr α) >>= f = .error e := rfl

@[simp] theorem epure_eq (a : α) : (pure a : Except PyErr α) = .ok a := rfl

theorem hGet_of_get? (h : Heap) (i : Nat) (o : Obj) (hg : h.get? i = some o) :
    hGet h i = .ok o := by
  unfold hGet
  rw [hg]

theorem hGet_of_none (h : Heap) (i : Nat) (hg : h.get? i = none) :
    hGet h i = .error .attributeError := by
  unfold hGet
  rw [hg]

theorem get?_hSet_self (h : Heap) (i : Nat) (o o₀ : Obj)
    (hg : h.get? i = some o₀) : (hSet h i o).get? i = some o := by
  unfold hSet
  rw [List.get?_set_eq, hg]
  rfl

theorem get?_hSet_ne (h : Heap) (i j : Nat) (o : Obj) (hne : i ≠ j) :
    (hSet h i o).get? j = h.get? j :=
  List.get?_set_ne o h hne

theorem shapeOf_set_edited (h : Heap) (j : Nat) (o : Obj) (b : Bool)
    (hj : h.get? j = some o) :
    ∀ i, shapeOf (hSet h j { o with edited := b }) i = shapeOf h i := by
  intro i
  by_cases hij : j = i
  · subst hij
    unfold shapeOf
    rw [get?_hSet_self h j _ o hj, hj]
    rfl
  · unfold shapeOf
    rw [get?_hSet_ne h j i _ hij]

theorem editedOf_set_edited_self (h : Heap) (j : Nat) (o : Obj) (b : Bool)
    (hj : h.get? j = some o) :
    editedOf (hSet h j { o with edited := b }) j = b := by
  unfold editedOf
  rw [get?_hSet_self h j _ o hj]
  rfl

theorem editedOf_set_ne (h : Heap) (j i : Nat) (o : Obj) (hne : j ≠ i) :
    editedOf (hSet h j o) i = editedOf h i := by
  unfold editedOf
  rw [get?_hSet_ne h j i o hne]

theorem invalidate_zero (j : Nat) (h : Heap) :
    invalidate 0 j h = .error .outOfFuel := rfl

theorem invalidate_succ (f j : Nat) (h : Heap) :
    invalidate (f + 1) j h =
      (hGet h j >>= fun o =>
        if o.lock then .error .assertionError
        else if o.edited then .ok h
        else
          match o.parent with
          | some p => invalidate f p (hSet h j { o with edited := true })
          | none => .ok (hSet h j { o with edited := true })) := rfl

/-- `invalidate` only turns `edited` flags on: it preserves every other
field of every object, never clears a flag, and leaves the target edited. -/
theorem invalidate_spec :
    ∀ (f j : Nat) (h h' : Heap), invalidate f j h = .ok h' →
      (∀ i, shapeOf h' i = shapeOf h i) ∧
      (∀ i, editedOf h i = true → editedOf h' i = true) ∧
      editedOf h' j = true := by
  intro f
  induction f with
  | zero =>
    intro j h h' hok
    rw [invalidate_zero] at hok
    exact absurd hok (by simp)
  | succ f ih =>
    intro j h h' hok
    rw [invalidate_succ] at hok
    cases hj : h.get? j with
    | none =>
      rw [hGet_of_none h j hj] at hok
      exact absurd hok (by simp)
    | some o =>
      obtain ⟨nm, br, ch, pa, cl, sz, ed, lk⟩ := o
      rw [hGet_of_get? h j _ hj, ebind_ok] at hok
      cases lk with
      | true => simp at hok
      | false =>
        cases ed with
        | true =>
          simp at hok
          subst hok
          refine ⟨fun i => rfl, fun i hi => hi, ?_⟩
          unfold editedOf
          rw [hj]
          rfl
        | false =>
          simp only [Bool.false_eq_true, if_false] at hok
          cases pa with
          | none =>
            simp at hok
            subst hok
            refine ⟨shapeOf_set_edited h j _ true hj, ?_, ?_⟩
            · intro i hi
              by_cases hij : j = i
              · subst hij
                rw [editedOf_set_edited_self h j _ true hj]
              · rwa [editedOf_set_ne h j i _ hij]
            · exact editedOf_set_edited_self h j _ true hj
          | some p =>
            simp only [] at hok
            obtain ⟨hsh, hmono, _⟩ := ih p _ h' hok
            refine ⟨?_, ?_, ?_⟩
            · intro i
              rw [hsh i, shapeOf_set_edited h j _ true hj i]
            · intro i hi
              apply hmono
              by_cases hij : j = i
              · subst hij
                rw [editedOf_set_edited_self h j _ true hj]
              · rwa [editedOf_set_ne h j i _ hij]
            · apply hmono
              exact editedOf_set_edited_self h j _ true hj

theorem shapeNCOf_of_shapeOf (h h' : Heap) (i : Nat)
    (he : shapeOf h' i = shapeOf h i) : shapeNCOf h' i = shapeNCOf h i := by
  unfold shapeOf at he
  unfold shapeNCOf
  cases h1 : h'.get? i <;> cases h2 : h.get? i <;> rw [h1, h2] at he <;>
    simp_all

theorem editedOf_of_shapeNCOf_get (h : Heap) (i : Nat) (o : Obj)
    (hg : h.get? i = some o) : editedOf h i = o.edited := by
  unfold editedOf
  rw [hg]
  rfl

theorem shapeNCOf_set_chips (h : Heap) (j : Nat) (o : Obj) (X : List ChipR)
    (hj : h.get? j = some o) :
    ∀ i, shapeNCOf (hSet h j { o with chips := X }) i = shapeNCOf h i := by
  intro i
  by_cases hij : j = i
  · subst hij
    unfold shapeNCOf
    rw [get?_hSet_self h j _ o hj, hj]
    rfl
  · unfold shapeNCOf
    rw [get?_hSet_ne h j i _ hij]

theorem editedOf_set_chips (h : Heap) (j : Nat) (o : Obj) (X : List ChipR)
    (hj : h.get? j = some o) :
    ∀ i, editedOf (hSet h j { o with chips := X }) i = editedOf h i := by
  intro i
  by_cases hij : j = i
  · subst hij
    unfold editedOf
    rw [get?_hSet_self h j _ o hj, hj]
    rfl
  · exact editedOf_set_ne h j i _ hij

theorem addChips_zero (j : Nat) (cs : List ChipR) (h : Heap) :
    addChips 0 j cs h = .error .outOfFuel := rfl

theorem addChips_succ (f j : Nat) (cs : List ChipR) (h : Heap) :
    addChips (f + 1) j cs h =
      (hGet h j >>= fun o =>
        if ¬ cs.all (· ∈ o.chips) then
          (invalidate f j h >>= fun h₁ =>
            hGet h₁ j >>= fun o' =>
              match o.parent with
              | some p =>
                addChips f p cs (hSet h₁ j { o' with chips := chipsUnion o'.chips cs })
              | none => .error .attributeError)
        else .ok h) := rfl

/-- `add_chips` changes only chip sets and `edited` flags, and never clears
a flag. -/
theorem addChips_spec :
    ∀ (f j : Nat) (cs : List ChipR) (h h' : Heap), addChips f j cs h = .ok h' →
      (∀ i, shapeNCOf h' i = shapeNCOf h i) ∧
      (∀ i, editedOf h i = true → editedOf h' i = true) := by
  intro f
  induction f with
  | zero =>
    intro j cs h h' hok
    rw [addChips_zero] at hok
    exact absurd hok (by simp)
  | succ f ih =>
    intro j cs h h' hok
    rw [addChips_succ] at hok
    cases hj : h.get? j with
    | none =>
      rw [hGet_of_none h j hj] at hok
      exact absurd hok (by simp)
    | some o =>
      rw [hGet_of_get? h j o hj, ebind_ok] at hok
      split at hok
      · cases hinv : invalidate f j h with
        | error e =>
          rw [hinv] at hok
          exact absurd hok (by simp)
        | ok h₁ =>
          rw [hinv, ebind_ok] at hok
          obtain ⟨hish, himono, hied⟩ := invalidate_spec f j h h₁ hinv
          cases hj1 : h₁.get? j with
          | none =>
            rw [hGet_of_none _ _ hj1] at hok
            exact absurd hok (by simp)
          | some o' =>
            rw [hGet_of_get? _ _ _ hj1, ebind_ok] at hok
            cases hp : o.parent with
            | some p =>
              rw [hp] at hok
              obtain ⟨hsh2, hmono2⟩ := ih p cs _ h' hok
              constructor
              · intro i
                rw [hsh2 i, shapeNCOf_set_chips h₁ j o' _ hj1 i]
                exact shapeNCOf_of_shapeOf h h₁ i (hish i)
              · intro i hi
                apply hmono2
                rw [editedOf_set_chips h₁ j o' _ hj1 i]
                exact himono i hi
            | none =>
              rw [hp] at hok
              exact absurd hok (by simp)
      · have hh : h = h' := by simpa using hok
        subst hh
        exact ⟨fun i => rfl, fun i hi => hi⟩

/-! ### Leaf components under `merge_children` and `apply_fixes` (C10) -/

theorem childrenOf_get (h : Heap) (i : Nat) (o : Obj)
    (hg : h.get? i = some o) : childrenOf h i = some o.children := by
  unfold childrenOf
  rw [hg]
  rfl

theorem childrenOf_some (h : Heap) (i : Nat) (cs : Option (List Nat))
    (hch : childrenOf h i = some cs) :
    ∃ o, h.get? i = some o ∧ o.children = cs := by
  unfold childrenOf at hch
  cases hg : h.get? i with
  | none => rw [hg] at hch; exact absurd hch (by simp)
  | some o =>
    rw [hg] at hch
    exact ⟨o, rfl, by simpa using hch⟩

theorem childrenOf_of_shapeOf (h h' : Heap) (i : Nat)
    (he : shapeOf h' i = shapeOf h i) : childrenOf h' i = childrenOf h i := by
  unfold shapeOf at he
  unfold childrenOf
  cases h1 : h'.get? i <;> cases h2 : h.get? i <;> rw [h1, h2] at he <;>
    simp_all

theorem childrenOf_set_keep (h : Heap) (j : Nat) (o o' : Obj)
    (hj : h.get? j = some o) (hc : o'.children = o.children) :
    ∀ i, childrenOf (hSet h j o') i = childrenOf h i := by
  intro i
  by_cases hij : j = i
  · subst hij
    unfold childrenOf
    rw [get?_hSet_self h j _ o hj, hj]
    simpa using hc
  · unfold childrenOf
    rw [get?_hSet_ne h j i _ hij]

/-- The corrector rewrite actions go through the name/size setters and
`invalidate` only; they never touch any children attribute. -/
theorem runAction_children (f : Nat) (a : Option CAction) (c : Nat)
    (h h' : Heap) (hok : runAction f a c h = .ok h') :
    ∀ j, childrenOf h' j = childrenOf h j := by
  cases a with
  | none =>
    have hh : h = h' := by simpa [runAction] using hok
    subst hh
    exact fun j => rfl
  | some act =>
    cases act with
    | actSetName s =>
      unfold runAction setName at hok
      dsimp only at hok
      cases hc : h.get? c with
      | none =>
        rw [hGet_of_none h c hc] at hok
        exact absurd hok (by simp)
      | some o =>
        rw [hGet_of_get? h c o hc, ebind_ok] at hok
        split at hok
        · intro j
          obtain ⟨hsh, _, _⟩ := invalidate_spec f c _ h' hok
          rw [childrenOf_of_shapeOf _ _ j (hsh j),
            childrenOf_set_keep h c o { o with name := some s } hc rfl j]
        · have hh : h = h' := by simpa using hok
          subst hh
          exact fun j => rfl
    | actSetSize n =>
      unfold runAction setSize at hok
      dsimp only at hok
      cases hc : h.get? c with
      | none =>
        rw [hGet_of_none h c hc] at hok
        exact absurd hok (by simp)
      | some o =>
        rw [hGet_of_get? h c o hc, ebind_ok] at hok
        intro j
        obtain ⟨hsh, _, _⟩ := invalidate_spec f c _ h' hok
        rw [childrenOf_of_shapeOf _ _ j (hsh j),
          childrenOf_set_keep h c o { o with size := n } hc rfl j]
    | actNop =>
      have hh : h = h' := by simpa [runAction] using hok
      subst hh
      exact fun j => rfl

theorem fExec_subs_nil (g : Nat) (c : Nat) (h : Heap) :
    fExec (g + 1) (.fSubs [] c) h = .ok h := rfl

theorem fExec_subs_cons (g : Nat) (fn : Option CAction)
    (kids : List (String × CorrectorT)) (rest : List CorrectorT) (c : Nat)
    (h : Heap) :
    fExec (g + 1) (.fSubs (CorrectorT.node fn kids :: rest) c) h =
      (runAction g fn c h >>= fun h₁ =>
        fExec g (.fChildren (.node fn kids) c 0) h₁ >>= fun h₂ =>
          fExec g (.fSubs rest c) h₂) := rfl

theorem fExec_children_none (g : Nat) (sub : CorrectorT) (c idx : Nat)
    (h : Heap) (o : Obj) (hg : h.get? c = some o) (hch : o.children = none) :
    fExec (g + 1) (.fChildren sub c idx) h = .ok h := by
  show (hGet h c >>= fun o =>
      match o.children with
      | none => .ok h
      | some cs => _) = .ok h
  rw [hGet_of_get? h c o hg, ebind_ok, hch]

/-- Running matching sub-correctors on a component whose children attribute
is `None` leaves every children attribute unchanged. -/
theorem fSubs_children_none :
    ∀ (g : Nat) (subs : List CorrectorT) (c : Nat) (h h' : Heap),
      childrenOf h c = some none →
      fExec g (.fSubs subs c) h = .ok h' →
      ∀ j, childrenOf h' j = childrenOf h j := by
  intro g
  induction g with
  | zero =>
    intro subs c h h' hch hok
    rw [fExec_zero] at hok
    exact absurd hok (by simp)
  | succ g ih =>
    intro subs c h h' hch hok
    cases subs with
    | nil =>
      rw [fExec_subs_nil] at hok
      have hh : h = h' := by simpa using hok
      subst hh
      exact fun j => rfl
    | cons sub rest =>
      obtain ⟨fn, kids⟩ := sub
      rw [fExec_subs_cons] at hok
      cases hra : runAction g fn c h with
      | error e =>
        rw [hra] at hok
        exact absurd hok (by simp)
      | ok h₁ =>
        rw [hra, ebind_ok] at hok
        have hpres1 := runAction_children g fn c h h₁ hra
        have hch1 : childrenOf h₁ c = some none := by rw [hpres1 c, hch]
        obtain ⟨o₁, hg1, hcho1⟩ := childrenOf_some h₁ c none hch1
        cases g with
        | zero =>
          rw [fExec_zero] at hok
          exact absurd hok (by simp)
        | succ g' =>
          rw [fExec_children_none g' (.node fn kids) c 0 h₁ o₁ hg1 hcho1,
            ebind_ok] at hok
          have hrest := ih rest c h₁ h' hch1 hok
          intro j
          rw [hrest j, hpres1 j]

theorem tExec_validate (f c : Nat) (h : Heap) :
    tExec (f + 1) (.tValidate c) h =
      (hGet h c >>= fun o =>
        if o.edited then
          match o.children with
          | none => .ok (hSet h c { o with edited := false })
          | some cs => tExec f (.tValidateList cs) (hSet h c { o with edited := false })
        else .ok h) := rfl

/-- `validate` on a leaf (children attribute `None`) just clears its edited
flag. -/
theorem validate_leaf (f c : Nat) (h : Heap) (o : Obj)
    (hget : h.get? c = some o) (hch : o.children = none) :
    validate (f + 1) c h =
      .ok (if o.edited then hSet h c { o with edited := false } else h) := by
  unfold validate
  rw [tExec_validate, hGet_of_get? h c o hget, ebind_ok]
  cases hed : o.edited with
  | true =>
    rw [if_pos rfl, if_pos rfl, hch]
  | false =>
    rw [if_neg (by simp), if_neg (by simp)]

theorem mergeChildren_succ (f c : Nat) (h : Heap) :
    mergeChildren (f + 1) c h =
      (hGet h c >>= fun o =>
        if o.edited then
          match o.children with
          | none => .error .typeError
          | some _ => mergeOuter f c 0 h
        else .ok h) := rfl

theorem ebind_congr {α β : Type} (x : Except PyErr α)
    {f g : α → Except PyErr β} (he : ∀ a, f a = g a) : x >>= f = x >>= g := by
  cases x with
  | error e => rfl
  | ok a => exact he a

theorem fExec_body (g : Nat) (corr : CorrectorT) (i : Nat) (h : Heap) :
    fExec (g + 1) (.fBody corr i) h =
      (validate g i h >>= fun h₁ =>
        hGet h₁ i >>= fun o =>
          (if containsCorr corr o.name then
            fExec g (.fSubs (subCorrectors corr o.name) i) h₁
          else pure h₁) >>= fun h₂ => mergeChildren g i h₂) := by
  conv_lhs => rw [fExec]
  apply ebind_congr
  intro h₁
  apply ebind_congr
  intro o
  by_cases hc : containsCorr corr o.name = true
  · rw [if_pos hc, if_pos hc]
  · rw [if_neg hc, if_neg hc]

/-- C10: on a component whose children attribute is `None` (every `Field`),
`merge_children` is a no-op while the component is unedited but raises
`TypeError` (`len(None)`) when it is edited; consequently `apply_fixes`
fails with `TypeError` whenever a matching corrector pass actually leaves
the component edited. -/
theorem claim_C10 (f : Nat) (corr : CorrectorT) (c : Nat) (h : Heap) (o : Obj)
    (hget : h.get? c = some o) (hch : o.children = none) :
    (o.edited = false → mergeChildren (f + 1) c h = .ok h) ∧
    (o.edited = true → mergeChildren (f + 1) c h = .error .typeError) ∧
    (∀ h₂, containsCorr corr o.name = true →
      fExec (f + 1) (.fSubs (subCorrectors corr o.name) c)
        (if o.edited then hSet h c { o with edited := false } else h) = .ok h₂ →
      editedOf h₂ c = true →
      applyFixes (f + 4) corr c h = .error .typeError) := by
  refine ⟨?_, ?_, ?_⟩
  · intro hed
    rw [mergeChildren_succ, hGet_of_get? h c o hget, ebind_ok, hed,
      if_neg (by simp)]
  · intro hed
    rw [mergeChildren_succ, hGet_of_get? h c o hget, ebind_ok, hed,
      if_pos rfl, hch]
  · intro h₂ hmatch hsubs hedit
    set hV : Heap := if o.edited then hSet h c { o with edited := false } else h
      with hVdef
    have hVget : hV.get? c =
        some (if o.edited then { o with edited := false } else o) := by
      rw [hVdef]
      cases hed : o.edited with
      | true =>
        rw [if_pos rfl, if_pos rfl]
        exact get?_hSet_self h c _ o hget
      | false =>
        rw [if_neg (by simp), if_neg (by simp)]
        exact hget
    have hVname : (if o.edited then { o with edited := false } else o).name
        = o.name := by
      cases o.edited <;> rfl
    have hVch : childrenOf hV c = some none := by
      rw [childrenOf_get hV c _ hVget]
      cases o.edited
      · simpa using hch
      · simpa using hch
    have hbody : fExec (f + 2) (.fBody corr c) h = .error .typeError := by
      rw [fExec_body, validate_leaf f c h o hget hch, ebind_ok, ← hVdef,
        hGet_of_get? hV c _ hVget, ebind_ok, hVname, if_pos hmatch, hsubs,
        ebind_ok]
      have hch2 : childrenOf h₂ c = some none := by
        rw [fSubs_children_none (f + 1) _ c hV h₂ hVch hsubs c, hVch]
      obtain ⟨o₂, hg2, hcho2⟩ := childrenOf_some h₂ c none hch2
      have hedo2 : o₂.edited = true := by
        rw [editedOf_of_shapeNCOf_get h₂ c o₂ hg2] at hedit
        exact hedit
      rw [mergeChildren_succ, hGet_of_get? h₂ c o₂ hg2, ebind_ok, hedo2,
        if_pos rfl, hcho2]
    have happ : applyFixes (f + 4) corr c h =
        fExec (f + 3) (.fLoop corr c fixCap) h := rfl
    have hcap : fixCap = 99 + 1 := rfl
    rw [happ, hcap, show f + 3 = (f + 2) + 1 from rfl, fExec_loop_succ, hbody,
      except_bind_error]

/-- Witness for C10: a lone field, a corrector that resizes it, and the
resulting `TypeError` from `apply_fixes`. -/
theorem claim_C10_witness :
    mergeChildren 5 0 c10Heap = .ok c10Heap ∧
    mergeChildren 5 0 c10HeapEdited = .error .typeError ∧
    applyFixes 13 c10Corr 0 c10Heap = .error .typeError := by
  refine ⟨?_, ?_, ?_⟩
  · exact (claim_C10 4 c10Corr 0 c10Heap ⟨some "F", none, [], none, none, 0,
      false, false⟩ (by decide) (by decide)).1 (by decide)
  · exact (claim_C10 4 c10Corr 0 c10HeapEdited ⟨some "F", none, [], none, none,
      0, true, false⟩ (by decide) (by decide)).2.1 (by decide)
  · exact (claim_C10 9 c10Corr 0 c10Heap ⟨some "F", none, [], none, none, 0,
      false, false⟩ (by decide) (by decide)).2.2
      [⟨some "F", none, [], none, none, 7, true, false⟩] (by decide)
      (by decide) (by decide)

/-! ### Finalisation locks (C8) -/

theorem lockOf_get (h : Heap) (i : Nat) (o : Obj) (hg : h.get? i = some o) :
    lockOf h i = o.lock := by
  unfold lockOf
  rw [hg]
  rfl

theorem lockOf_set_self (h : Heap) (j : Nat) (o o' : Obj)
    (hj : h.get? j = some o) :
    lockOf (hSet h j o') j = o'.lock := by
  unfold lockOf
  rw [get?_hSet_self h j _ o hj]
  rfl

theorem lockOf_set_ne (h : Heap) (j i : Nat) (o : Obj) (hne : j ≠ i) :
    lockOf (hSet h j o) i = lockOf h i := by
  unfold lockOf
  rw [get?_hSet_ne h j i o hne]

theorem tExec_validateList_nil (f : Nat) (h : Heap) :
    tExec (f + 1) (.tValidateList []) h = .ok h := rfl

theorem tExec_validateList_cons (f c : Nat) (rest : List Nat) (h : Heap) :
    tExec (f + 1) (.tValidateList (c :: rest)) h =
      (tExec f (.tValidate c) h >>= fun h₁ =>
        tExec f (.tValidateList rest) h₁) := rfl

theorem tExec_finalize (f c : Nat) (h : Heap) :
    tExec (f + 1) (.tFinalize c) h =
      (hGet h c >>= fun o =>
        match o.children with
        | none => .error .typeError
        | some cs => tExec f (.tFinalizeList cs) (hSet h c { o with lock := true })) := rfl

theorem tExec_finalizeList_nil (f : Nat) (h : Heap) :
    tExec (f + 1) (.tFinalizeList []) h = .ok h := rfl

theorem tExec_finalizeList_cons (f c : Nat) (rest : List Nat) (h : Heap) :
    tExec (f + 1) (.tFinalizeList (c :: rest)) h =
      (tExec f (.tFinalize c) h >>= fun h₁ =>
        tExec f (.tFinalizeList rest) h₁) := rfl

/-- The tree traversals never clear a finalisation lock, and `finalize`
leaves its target locked. -/
theorem tExec_lock_spec :
    ∀ (f : Nat) (op : TOp) (h h' : Heap), tExec f op h = .ok h' →
      (∀ j, lockOf h j = true → lockOf h' j = true) ∧
      (∀ i, op = .tFinalize i → lockOf h' i = true) := by
  intro f
  induction f with
  | zero =>
    intro op h h' hok
    exact absurd hok (by simp [tExec])
  | succ f ih =>
    intro op h h' hok
    cases op with
    | tValidate c =>
      rw [tExec_validate] at hok
      cases hj : h.get? c with
      | none =>
        rw [hGet_of_none h c hj] at hok
        exact absurd hok (by simp)
      | some o =>
        obtain ⟨nm, br, ch, pa, cl, sz, ed, lk⟩ := o
        rw [hGet_of_get? h c _ hj, ebind_ok] at hok
        cases ed with
        | false =>
          rw [if_neg (by simp)] at hok
          have hh : h = h' := by simpa using hok
          subst hh
          exact ⟨fun j hj => hj, fun i hi => by cases hi⟩
        | true =>
          rw [if_pos rfl] at hok
          have hpres : ∀ j, lockOf h j = true →
              lockOf (hSet h c ⟨nm, br, ch, pa, cl, sz, false, lk⟩) j
                = true := by
            intro j hlj
            by_cases hcj : c = j
            · subst hcj
              rw [lockOf_set_self h c _ _ hj]
              rwa [lockOf_get h c _ hj] at hlj
            · rwa [lockOf_set_ne h c j _ hcj]
          cases cl with
          | none =>
            have hh : hSet h c ⟨nm, br, ch, pa, none, sz, false, lk⟩ = h' := by
              simpa using hok
            subst hh
            exact ⟨hpres, fun i hi => by cases hi⟩
          | some cs =>
            obtain ⟨hmono, _⟩ := ih (.tValidateList cs) _ h' hok
            exact ⟨fun j hlj => hmono j (hpres j hlj), fun i hi => by cases hi⟩
    | tValidateList cs =>
      cases cs with
      | nil =>
        rw [tExec_validateList_nil] at hok
        have hh : h = h' := by simpa using hok
        subst hh
        exact ⟨fun j hj => hj, fun i hi => by cases hi⟩
      | cons c rest =>
        rw [tExec_validateList_cons] at hok
        cases h1 : tExec f (.tValidate c) h with
        | error e =>
          rw [h1] at hok
          exact absurd hok (by simp)
        | ok h₁ =>
          rw [h1, ebind_ok] at hok
          obtain ⟨hm1, _⟩ := ih (.tValidate c) h h₁ h1
          obtain ⟨hm2, _⟩ := ih (.tValidateList rest) h₁ h' hok
          exact ⟨fun j hlj => hm2 j (hm1 j hlj), fun i hi => by cases hi⟩
    | tFinalize c =>
      rw [tExec_finalize] at hok
      cases hj : h.get? c with
      | none =>
        rw [hGet_of_none h c hj] at hok
        exact absurd hok (by simp)
      | some o =>
        obtain ⟨nm, br, ch, pa, cl, sz, ed, lk⟩ := o
        rw [hGet_of_get? h c _ hj, ebind_ok] at hok
        cases cl with
        | none =>
          exact absurd hok (by simp)
        | some cs =>
          obtain ⟨hmono, _⟩ := ih (.tFinalizeList cs) _ h' hok
          have hlkc :
              lockOf (hSet h c ⟨nm, br, ch, pa, some cs, sz, ed, true⟩) c
                = true := by
            rw [lockOf_set_self h c _ _ hj]
          have hpres : ∀ j, lockOf h j = true →
              lockOf (hSet h c ⟨nm, br, ch, pa, some cs, sz, ed, true⟩) j
                = true := by
            intro j hlj
            by_cases hcj : c = j
            · subst hcj
              exact hlkc
            · rwa [lockOf_set_ne h c j _ hcj]
          refine ⟨fun j hlj => hmono j (hpres j hlj), fun i hi => ?_⟩
          cases hi
          exact hmono c hlkc
    | tFinalizeList cs =>
      cases cs with
      | nil =>
        rw [tExec_finalizeList_nil] at hok
        have hh : h = h' := by simpa using hok
        subst hh
        exact ⟨fun j hj => hj, fun i hi => by cases hi⟩
      | cons c rest =>
        rw [tExec_finalizeList_cons] at hok
        cases h1 : tExec f (.tFinalize c) h with
        | error e =>
          rw [h1] at hok
          exact absurd hok (by simp)
        | ok h₁ =>
          rw [h1, ebind_ok] at hok
          obtain ⟨hm1, _⟩ := ih (.tFinalize c) h h₁ h1
          obtain ⟨hm2, _⟩ := ih (.tFinalizeList rest) h₁ h' hok
          exact ⟨fun j hlj => hm2 j (hm1 j hlj), fun i hi => by cases hi⟩

/-- `finalize` leaves the component locked. -/
theorem finalize_locks (f c : Nat) (h h' : Heap)
    (hok : finalize f c h = .ok h') : lockOf h' c = true :=
  (tExec_lock_spec f (.tFinalize c) h h' hok).2 c rfl

/-- `invalidate` on a locked component raises `AssertionError`. -/
theorem invalidate_locked (f c : Nat) (h : Heap) (o : Obj)
    (hg : h.get? c = some o) (hlk : o.lock = true) :
    invalidate (f + 1) c h = .error .assertionError := by
  rw [invalidate_succ, hGet_of_get? h c o hg, ebind_ok, hlk, if_pos rfl]

/-- The name setter on a locked component stores the new name, then fails
with `AssertionError` from `invalidate`. -/
theorem setName_locked (f c : Nat) (s : Option String) (h : Heap) (o : Obj)
    (hg : h.get? c = some o) (hlk : o.lock = true)
    (hcond : o.name = none ∨ s ≠ o.name) :
    setName (f + 1) c s h = .error .assertionError := by
  unfold setName
  rw [hGet_of_get? h c o hg, ebind_ok, if_pos hcond]
  exact invalidate_locked f c _ { o with name := s }
    (get?_hSet_self h c _ o hg) hlk

/-- C8 amended: after `finalize`, any mutation reaching `invalidate` — the
gate every mutating operation goes through — fails with `AssertionError`
(the bare `assert` guarding the lock); the code base defines no
`LockedComponentError`. -/
theorem claim_C8_amended (g f c : Nat) (s : Option String) (h h₁ : Heap)
    (o : Obj) (hfin : finalize g c h = .ok h₁) (hget : h₁.get? c = some o)
    (hname : o.name = none ∨ s ≠ o.name) :
    invalidate (f + 1) c h₁ = .error .assertionError ∧
    setName (f + 1) c s h₁ = .error .assertionError := by
  have hlk : o.lock = true := by
    have hl := finalize_locks g c h h₁ hfin
    rwa [lockOf_get h₁ c o hget] at hl
  exact ⟨invalidate_locked f c h₁ o hget hlk,
    setName_locked f c s h₁ o hget hlk hname⟩

/-- Witness for C8 at the concrete scenario. -/
theorem claim_C8_witness :
    invalidate 5 0 c8HeapLocked = .error .assertionError ∧
    setName 5 0 (some "B") c8HeapLocked = .error .assertionError :=
  claim_C8_amended 5 4 0 (some "B") c8Heap c8HeapLocked
    ⟨some "P", none, [], none, some [], 0, true, true⟩
    (by decide) (by decide) (Or.inr (by decide))

/-! ### Placement of mapping elements (C3) -/

/-- The mapping scan of `add_placement`, characterised: when no mapping holds
an equal element, it returns the index of the last mapping with room (shifted
by the running index), or the incoming accumulator when none has room. -/
theorem placementScan_no_contains :
    ∀ (ms : List MappingR) (e : ElemR) (i : Nat) (acc : Option Nat),
      (∀ m ∈ ms, mappingContains m e = false) →
      placementScan ms e i acc =
        .ok (.inl (match lastRoomIdx ms e with
          | some j => some (i + j)
          | none => acc)) := by
  intro ms
  induction ms with
  | nil =>
    intro e i acc _
    rfl
  | cons m rest ih =>
    intro e i acc hnc
    have hm : mappingContains m e = false := hnc m (List.mem_cons_self m rest)
    have hrest : ∀ m' ∈ rest, mappingContains m' e = false := fun m' hm' =>
      hnc m' (List.mem_cons_of_mem m hm')
    unfold placementScan
    rw [hm]
    simp only [Bool.false_eq_true, if_false]
    unfold lastRoomIdx
    cases hr : lastRoomIdx rest e with
    | some j =>
      cases hroom : has_room_for m e with
      | true =>
        rw [if_pos rfl, ih e (i + 1) (some i) hrest, hr]
        simp [Nat.add_assoc, Nat.add_comm, Nat.add_left_comm]
      | false =>
        rw [if_neg (by simp), ih e (i + 1) acc hrest, hr]
        simp [Nat.add_assoc, Nat.add_comm, Nat.add_left_comm]
    | none =>
      cases hroom : has_room_for m e with
      | true =>
        rw [if_pos rfl, ih e (i + 1) (some i) hrest, hr]
        simp
      | false =>
        rw [if_neg (by simp), ih e (i + 1) acc hrest, hr]
        simp

/-- `lastRoomIdx` really is the last index with room. -/
theorem lastRoomIdx_spec :
    ∀ (ms : List MappingR) (e : ElemR),
      (∀ j, lastRoomIdx ms e = some j →
        j < ms.length ∧ has_room_for (ms.get! j) e = true ∧
        ∀ k, j < k → k < ms.length → has_room_for (ms.get! k) e = false) ∧
      (lastRoomIdx ms e = none →
        ∀ k, k < ms.length → has_room_for (ms.get! k) e = false) := by
  intro ms
  induction ms with
  | nil =>
    intro e
    constructor
    · intro j hj
      exact absurd hj (by simp [lastRoomIdx])
    · intro _ k hk
      simp at hk
  | cons m rest ih =>
    intro e
    obtain ⟨ihs, ihn⟩ := ih e
    constructor
    · intro j hj
      unfold lastRoomIdx at hj
      cases hr : lastRoomIdx rest e with
      | some j' =>
        rw [hr] at hj
        cases hj
        obtain ⟨hlt, hroom, hafter⟩ := ihs j' hr
        refine ⟨by simpa using Nat.succ_lt_succ hlt, hroom, ?_⟩
        intro k hk1 hk2
        match k, hk1 with
        | k + 1, _ =>
          exact hafter k (by omega) (by simpa using hk2)
      | none =>
        rw [hr] at hj
        cases hroom : has_room_for m e with
        | true =>
          rw [hroom, if_pos rfl] at hj
          cases hj
          refine ⟨by simp, hroom, ?_⟩
          intro k hk1 hk2
          match k, hk1 with
          | k + 1, _ =>
            exact ihn hr k (by simpa using hk2)
        | false =>
          rw [hroom, if_neg (by simp)] at hj
          cases hj
    · intro hnone k hk
      unfold lastRoomIdx at hnone
      cases hr : lastRoomIdx rest e with
      | some j' =>
        rw [hr] at hnone
        cases hnone
      | none =>
        rw [hr] at hnone
        cases hroom : has_room_for m e with
        | true =>
          rw [hroom, if_pos rfl] at hnone
          cases hnone
        | false =>
          match k with
          | 0 => exact hroom
          | k + 1 => exact ihn hr k (by simpa using hk)

/-- C3 amended: with the element resolved against the same-name register and
no mapping holding an equal element, `add_placement` inserts the element into
the *last* mapping with room; when no mapping has room it raises —
`TypeError` when a mapping already exists (Python indexes `self.mappings`
with an object), `AttributeError` otherwise (assignment to the setter-less
`edited` property). -/
theorem claim_C3_amended (P : PeriphR) (e e' : ElemR) (nm : String)
    (r : RegEntry) (hnm : e.compName = some nm)
    (hfind : P.registers.find? (fun x => x.name == some nm) = some r)
    (he' : e' = { e with compName := r.name, compSize := r.size })
    (hnoeq : ∀ m ∈ P.mappings, mappingContains m e' = false) :
    (∀ j, lastRoomIdx P.mappings e' = some j →
      add_placement P e =
        .ok { P with mappings :=
          P.mappings.set j (add_element (P.mappings.get! j) e') } ∧
      has_room_for (P.mappings.get! j) e' = true ∧
      (∀ k, j < k → k < P.mappings.length →
        has_room_for (P.mappings.get! k) e' = false)) ∧
    (lastRoomIdx P.mappings e' = none →
      (∀ k, k < P.mappings.length →
        has_room_for (P.mappings.get! k) e' = false) ∧
      add_placement P e =
        .error (if P.mappings.any (fun m => m.name == (none : Option String))
                then .typeError else .attributeError)) := by
  have hunf : add_placement P e =
      (placementScan P.mappings e' 0 none >>= fun res =>
        match res with
        | .inr i =>
          .ok { P with
                mappings := P.mappings.set i
                  (mappingMergeEqual (P.mappings.get! i) e') }
        | .inl (some i) =>
          .ok { P with
                mappings := P.mappings.set i
                  (add_element (P.mappings.get! i) e') }
        | .inl none =>
          if P.mappings.any (fun m => m.name == (none : Option String)) then
            .error .typeError
          else
            .error .attributeError) := by
    subst he'
    unfold add_placement
    rw [hnm]
    dsimp only
    rw [hfind]
    dsimp only
    rw [ebind_ok]
  constructor
  · intro j hj
    refine ⟨?_, ((lastRoomIdx_spec P.mappings e').1 j hj).2.1,
      ((lastRoomIdx_spec P.mappings e').1 j hj).2.2⟩
    rw [hunf, placementScan_no_contains P.mappings e' 0 none hnoeq, hj]
    simp
  · intro hnone
    refine ⟨(lastRoomIdx_spec P.mappings e').2 hnone, ?_⟩
    rw [hunf, placementScan_no_contains P.mappings e' 0 none hnoeq, hnone]
    simp [apply_ite]

/-- Witness for C3 at the two concrete scenarios of the counterexample. -/
theorem claim_C3_amended_witness :
    add_placement c3Periph c3ElemB =
      .ok { c3Periph with mappings :=
        c3Periph.mappings.set 1 (add_element (c3Periph.mappings.get! 1) c3ElemB') } ∧
    add_placement c3Periph c3ElemClash = .error .typeError := by
  constructor
  · exact ((claim_C3_amended c3Periph c3ElemB c3ElemB' "B" ⟨some "B", 32⟩
      (by decide) (by decide) (by decide) (by decide)).1 1 (by decide)).1
  · have h := (claim_C3_amended c3Periph c3ElemClash
      ⟨some "B", 0, 0, 0, some "B", 32, []⟩ "B" ⟨some "B", 32⟩
      (by decide) (by decide) (by decide) (by decide)).2 (by decide)
    exact h.2

/-! ### The guard-expression emission loops (C2) -/

theorem chipNameOk_spec (c : ChipR) (h : chipNameOk c = true) :
    ∃ f, get_family c.name = .ok f ∧ strUpper f = f ∧ famOf c = some f := by
  unfold chipNameOk at h
  cases hg : get_family c.name with
  | error e =>
    rw [hg] at h
    exact absurd h (by simp)
  | ok f =>
    rw [hg] at h
    refine ⟨f, rfl, by simpa using h, ?_⟩
    unfold famOf
    rw [hg]

theorem insSorted_perm (le : α → α → Bool) (x : α) :
    ∀ l : List α, (insSorted le x l).Perm (x :: l) := by
  intro l
  induction l with
  | nil => exact List.Perm.refl _
  | cons y ys ih =>
    unfold insSorted
    cases hle : le y x with
    | true =>
      rw [if_pos rfl]
      exact ((ih.cons y).trans (List.Perm.swap x y ys))
    | false =>
      rw [if_neg (by simp)]

theorem pySorted_perm (le : α → α → Bool) :
    ∀ l : List α, (pySorted le l).Perm l := by
  intro l
  induction l with
  | nil => exact List.Perm.refl _
  | cons c rest ih =>
    unfold pySorted
    rw [List.foldr_cons]
    exact (insSorted_perm le c _).trans (ih.cons c)

theorem pySorted_mem (le : α → α → Bool) (l : List α) (x : α) :
    x ∈ pySorted le l ↔ x ∈ l :=
  (pySorted_perm le l).mem_iff

/-- Keys after a `famInsert`. -/
theorem famInsert_keys (f₀ : String) (c₀ : ChipR) :
    ∀ acc : List (String × List ChipR), ∀ f,
      f ∈ (famInsert acc f₀ c₀).map Prod.fst ↔
        (f ∈ acc.map Prod.fst ∨ f = f₀) := by
  intro acc
  induction acc with
  | nil =>
    intro f
    simp [famInsert]
  | cons gl rest ih =>
    intro f
    obtain ⟨g, l⟩ := gl
    unfold famInsert
    by_cases hg : g = f₀
    · rw [if_pos hg]
      subst hg
      simp
      tauto
    · rw [if_neg hg]
      simp [ih f]
      tauto

theorem famInsert_keys_nodup (f₀ : String) (c₀ : ChipR) :
    ∀ acc : List (String × List ChipR), (acc.map Prod.fst).Nodup →
      ((famInsert acc f₀ c₀).map Prod.fst).Nodup := by
  intro acc
  induction acc with
  | nil =>
    intro _
    simp [famInsert]
  | cons gl rest ih =>
    intro hnd
    obtain ⟨g, l⟩ := gl
    unfold famInsert
    rw [List.map_cons] at hnd
    by_cases hg : g = f₀
    · rw [if_pos hg]
      simpa using hnd
    · rw [if_neg hg]
      rw [List.map_cons, List.nodup_cons]
      refine ⟨?_, ih hnd.of_cons⟩
      intro hmem
      rcases (famInsert_keys f₀ c₀ rest g).1 hmem with hin | heq
      · exact (List.nodup_cons.1 hnd).1 hin
      · exact hg heq

/-- Entries after a `famInsert`, assuming distinct keys. -/
theorem famInsert_entries (f₀ : String) (c₀ : ChipR) :
    ∀ acc : List (String × List ChipR), (acc.map Prod.fst).Nodup →
      ∀ f l, (f, l) ∈ famInsert acc f₀ c₀ →
        (f ≠ f₀ ∧ (f, l) ∈ acc) ∨
        (f = f₀ ∧ f₀ ∉ acc.map Prod.fst ∧ l = [c₀]) ∨
        (f = f₀ ∧ ∃ l₀, (f₀, l₀) ∈ acc ∧
          l = (if c₀ ∈ l₀ then l₀ else l₀ ++ [c₀])) := by
  intro acc
  induction acc with
  | nil =>
    intro _ f l hmem
    unfold famInsert at hmem
    rcases List.mem_singleton.1 hmem with h
    cases h
    exact Or.inr (Or.inl ⟨rfl, by simp, rfl⟩)
  | cons gl rest ih =>
    intro hnd f l hmem
    obtain ⟨g, l₁⟩ := gl
    rw [List.map_cons] at hnd
    unfold famInsert at hmem
    by_cases hg : g = f₀
    · rw [if_pos hg] at hmem
      subst hg
      rcases List.mem_cons.1 hmem with h | h
      · cases h
        exact Or.inr (Or.inr ⟨rfl, l₁, List.mem_cons_self _ _, rfl⟩)
      · -- an entry of `rest`; its key differs from g since keys are distinct
        have hfk : f ∈ rest.map Prod.fst :=
          List.mem_map.2 ⟨(f, l), h, rfl⟩
        have hne : f ≠ g := fun hfg =>
          (List.nodup_cons.1 hnd).1 (hfg ▸ hfk)
        exact Or.inl ⟨hne, List.mem_cons_of_mem _ h⟩
    · rw [if_neg hg] at hmem
      rcases List.mem_cons.1 hmem with h | h
      · cases h
        refine Or.inl ⟨fun hg' => hg hg', List.mem_cons_self _ _⟩
      · rcases ih (List.nodup_cons.1 hnd).2 f l h with
          ⟨hne, hin⟩ | ⟨heq, hnk, hl⟩ | ⟨heq, l₀, hin, hl⟩
        · exact Or.inl ⟨hne, List.mem_cons_of_mem _ hin⟩
        · refine Or.inr (Or.inl ⟨heq, ?_, hl⟩)
          simpa [hg] using And.intro (Ne.symm hg) hnk
        · exact Or.inr (Or.inr ⟨heq, l₀, List.mem_cons_of_mem _ hin, hl⟩)

/-- One `famInsert` step preserves the fold invariant of `update_families`:
distinct keys, keys = families seen so far, and each bucket holding exactly
the chips of its family among those seen so far. -/
theorem famInsert_step (acc : List (String × List ChipR)) (done : List ChipR)
    (c : ChipR) (f₀ : String) (hfam : famOf c = some f₀)
    (h1 : (acc.map Prod.fst).Nodup)
    (h2 : ∀ f, f ∈ acc.map Prod.fst ↔ ∃ x ∈ done, famOf x = some f)
    (h3 : ∀ f l, (f, l) ∈ acc → ∀ x, x ∈ l ↔ (x ∈ done ∧ famOf x = some f)) :
    ((famInsert acc f₀ c).map Prod.fst).Nodup ∧
    (∀ f, f ∈ (famInsert acc f₀ c).map Prod.fst ↔
      ∃ x ∈ done ++ [c], famOf x = some f) ∧
    (∀ f l, (f, l) ∈ famInsert acc f₀ c → ∀ x,
      x ∈ l ↔ (x ∈ done ++ [c] ∧ famOf x = some f)) := by
  refine ⟨famInsert_keys_nodup f₀ c acc h1, ?_, ?_⟩
  · intro f
    rw [famInsert_keys]
    constructor
    · rintro (hin | rfl)
      · obtain ⟨x, hx, hfx⟩ := (h2 f).1 hin
        exact ⟨x, List.mem_append_left _ hx, hfx⟩
      · exact ⟨c, List.mem_append_right _ (List.mem_singleton_self c), hfam⟩
    · rintro ⟨x, hx, hfx⟩
      rcases List.mem_append.1 hx with hx | hx
      · exact Or.inl ((h2 f).2 ⟨x, hx, hfx⟩)
      · rcases List.mem_singleton.1 hx with rfl
        rw [hfam] at hfx
        exact Or.inr (Option.some.inj hfx).symm
  · intro f l hmem x
    rcases famInsert_entries f₀ c acc h1 f l hmem with
      ⟨hne, hin⟩ | ⟨rfl, hnk, rfl⟩ | ⟨rfl, l₀, hin, rfl⟩
    · rw [h3 f l hin x]
      constructor
      · rintro ⟨hx, hfx⟩
        exact ⟨List.mem_append_left _ hx, hfx⟩
      · rintro ⟨hx, hfx⟩
        rcases List.mem_append.1 hx with hx | hx
        · exact ⟨hx, hfx⟩
        · rcases List.mem_singleton.1 hx with rfl
          rw [hfam] at hfx
          exact absurd (Option.some.inj hfx).symm hne
    · constructor
      · intro hx
        rcases List.mem_singleton.1 hx with rfl
        exact ⟨List.mem_append_right _ (List.mem_singleton_self x), hfam⟩
      · rintro ⟨hx, hfx⟩
        rcases List.mem_append.1 hx with hx | hx
        · exact absurd ((h2 f).2 ⟨x, hx, hfx⟩) hnk
        · exact hx
    · have hbase := h3 f l₀ hin
      have hsplit : x ∈ (if c ∈ l₀ then l₀ else l₀ ++ [c]) ↔ (x ∈ l₀ ∨ x = c) := by
        by_cases hc : c ∈ l₀
        · rw [if_pos hc]
          constructor
          · exact Or.inl
          · rintro (hx | rfl)
            · exact hx
            · exact hc
        · rw [if_neg hc]
          simp
      rw [hsplit]
      constructor
      · rintro (hx | rfl)
        · obtain ⟨hxd, hfx⟩ := (hbase x).1 hx
          exact ⟨List.mem_append_left _ hxd, hfx⟩
        · exact ⟨List.mem_append_right _ (List.mem_singleton_self x), hfam⟩
      · rintro ⟨hx, hfx⟩
        rcases List.mem_append.1 hx with hx | hx
        · exact Or.inl ((hbase x).2 ⟨hx, hfx⟩)
        · exact Or.inr (List.mem_singleton.1 hx)

/-- The fold of `update_families` succeeds on well-named chips and its result
satisfies the invariant, for any well-formed starting accumulator. -/
theorem updateFamilies_fold :
    ∀ (chips : List ChipR) (acc : List (String × List ChipR)) (done : List ChipR),
      (∀ c ∈ chips, chipNameOk c = true) →
      (acc.map Prod.fst).Nodup →
      (∀ f, f ∈ acc.map Prod.fst ↔ ∃ x ∈ done, famOf x = some f) →
      (∀ f l, (f, l) ∈ acc → ∀ x, x ∈ l ↔ (x ∈ done ∧ famOf x = some f)) →
      ∃ fams, chips.foldlM (fun acc c => do
          let fam ← get_family c.name
          pure (famInsert acc (strUpper fam) c)) acc = .ok fams ∧
        (fams.map Prod.fst).Nodup ∧
        (∀ f, f ∈ fams.map Prod.fst ↔ ∃ x ∈ done ++ chips, famOf x = some f) ∧
        (∀ f l, (f, l) ∈ fams → ∀ x, x ∈ l ↔ (x ∈ done ++ chips ∧ famOf x = some f)) := by
  intro chips
  induction chips with
  | nil =>
    intro acc done _ h1 h2 h3
    exact ⟨acc, rfl, h1, by simpa using h2, by simpa using h3⟩
  | cons c cs ih =>
    intro acc done hok h1 h2 h3
    obtain ⟨f₀, hgf, hup, hfam⟩ := chipNameOk_spec c (hok c (List.mem_cons_self _ _))
    obtain ⟨g1, g2, g3⟩ := famInsert_step acc done c f₀ hfam h1 h2 h3
    obtain ⟨fams, hfold, k1, k2, k3⟩ :=
      ih (famInsert acc f₀ c) (done ++ [c])
        (fun x hx => hok x (List.mem_cons_of_mem _ hx)) g1 g2 g3
    refine ⟨fams, ?_, k1, ?_, ?_⟩
    · rw [List.foldlM_cons, hgf, ebind_ok, epure_eq, ebind_ok, hup]
      exact hfold
    · intro f
      rw [k2 f, List.append_assoc, List.singleton_append]
    · intro f l hmem x
      rw [k3 f l hmem x, List.append_assoc, List.singleton_append]

/-- `ChipSet.update_families` on well-named chips: it succeeds, family keys
are distinct, keys are exactly the families occurring among the chips, and
each bucket holds exactly the chips of its family. -/
theorem updateFamilies_spec (R : List ChipR)
    (hok : ∀ c ∈ R, chipNameOk c = true) :
    ∃ fams, updateFamilies R = .ok fams ∧
      (fams.map Prod.fst).Nodup ∧
      (∀ f, f ∈ fams.map Prod.fst ↔ ∃ x ∈ R, famOf x = some f) ∧
      (∀ f l, (f, l) ∈ fams → ∀ x, x ∈ l ↔ (x ∈ R ∧ famOf x = some f)) := by
  obtain ⟨fams, hfold, k1, k2, k3⟩ :=
    updateFamilies_fold R [] [] hok (by simp) (by simp) (by simp)
  exact ⟨fams, hfold, k1, by simpa using k2, by simpa using k3⟩

/-- The matched family keys of `defined_list` are exactly (and without
repetition) the wholly contained families of the reference. -/
theorem matchedKeys_spec (S R : List ChipR)
    (fams : List (String × List ChipR))
    (k1 : (fams.map Prod.fst).Nodup)
    (k2 : ∀ f, f ∈ fams.map Prod.fst ↔ ∃ x ∈ R, famOf x = some f)
    (k3 : ∀ f l, (f, l) ∈ fams → ∀ x, x ∈ l ↔ (x ∈ R ∧ famOf x = some f)) :
    (((fams.filter (fun fl => fl.2.all (· ∈ S))).map Prod.fst).Nodup) ∧
    (∀ f, f ∈ (fams.filter (fun fl => fl.2.all (· ∈ S))).map Prod.fst ↔
      whollyContained S R f) := by
  constructor
  · exact k1.sublist ((List.filter_sublist fams).map Prod.fst)
  · intro f
    constructor
    · intro hmem
      obtain ⟨⟨f', l⟩, hfl, hfst⟩ := List.mem_map.1 hmem
      obtain ⟨hin, hall⟩ := List.mem_filter.1 hfl
      have hf : f = f' := hfst.symm
      subst hf
      constructor
      · exact (k2 f).1 (List.mem_map.2 ⟨(f, l), hin, rfl⟩)
      · intro x hx hfx
        have hxl : x ∈ l := (k3 f l hin x).2 ⟨hx, hfx⟩
        have := List.all_eq_true.1 hall x hxl
        simpa using this
    · rintro ⟨hex, hall⟩
      obtain ⟨⟨f', l⟩, hin, hfst⟩ := List.mem_map.1 ((k2 f).2 hex)
      have hf : f = f' := hfst.symm
      subst hf
      refine List.mem_map.2 ⟨(f, l), List.mem_filter.2 ⟨hin, ?_⟩, rfl⟩
      refine List.all_eq_true.2 ?_
      intro x hxl
      obtain ⟨hx, hfx⟩ := (k3 f l hin x).1 hxl
      simpa using hall x hx hfx

/-- The chip loop of `defined_list`: on well-named chips it never fails and
appends exactly the `filterMap` of `chipEmit` over the chips. -/
theorem chipLoop_spec (keys : List String) :
    ∀ (chips : List ChipR) (acc : List DefTok),
      (∀ c ∈ chips, chipNameOk c = true) →
      chips.foldlM (fun acc c => do
        let fam ← get_family c.name
        if keys.contains fam then pure acc
        else pure (acc ++ [DefTok.chip c.name])) acc =
      .ok (acc ++ chips.filterMap (chipEmit keys)) := by
  intro chips
  induction chips with
  | nil =>
    intro acc _
    simp
  | cons c cs ih =>
    intro acc hok
    obtain ⟨f₀, hgf, _, _⟩ := chipNameOk_spec c (hok c (List.mem_cons_self _ _))
    rw [List.foldlM_cons, hgf, ebind_ok]
    have hemit : chipEmit keys c =
        (if keys.contains f₀ then none else some (DefTok.chip c.name)) := by
      unfold chipEmit
      rw [hgf]
    by_cases hk : keys.contains f₀ = true
    · rw [if_pos hk, epure_eq, ebind_ok,
        ih acc (fun x hx => hok x (List.mem_cons_of_mem _ hx)),
        List.filterMap_cons_none (by rw [hemit, if_pos hk])]
    · rw [if_neg hk, epure_eq, ebind_ok,
        ih (acc ++ [DefTok.chip c.name])
          (fun x hx => hok x (List.mem_cons_of_mem _ hx)),
        List.filterMap_cons_some (by rw [hemit, if_neg hk])]
      simp

theorem contains_eq_mem (l : List String) (a : String) :
    l.contains a = true ↔ a ∈ l := by
  simp

theorem chipEmit_ok (keys : List String) (c : ChipR) (f : String)
    (h : get_family c.name = .ok f) :
    chipEmit keys c =
      (if keys.contains f then none else some (DefTok.chip c.name)) := by
  unfold chipEmit
  rw [h]

theorem chipEmit_err (keys : List String) (c : ChipR) (e : PyErr)
    (h : get_family c.name = .error e) :
    chipEmit keys c = none := by
  unfold chipEmit
  rw [h]

theorem famOf_ok (c : ChipR) (f : String) (h : famOf c = some f) :
    get_family c.name = .ok f := by
  unfold famOf at h
  cases hg : get_family c.name with
  | error e =>
    rw [hg] at h
    simp at h
  | ok g =>
    rw [hg] at h
    dsimp only at h
    exact congrArg Except.ok (Option.some.inj h)

/-- `definedEmissions` computed: the sorted matched family keys first, then
whatever `chipEmit` keeps of the name-sorted chipset. -/
theorem definedEmissions_eq (S R : List ChipR)
    (fams : List (String × List ChipR))
    (hfams : updateFamilies R = .ok fams)
    (hokS : ∀ c ∈ S, chipNameOk c = true) :
    definedEmissions S R = .ok
      (((pySorted strLe ((fams.filter (fun fl => fl.2.all (· ∈ S))).map (·.1))).map
          DefTok.family) ++
        (pySorted (fun a b => strLe a.name b.name) S).filterMap
          (chipEmit ((fams.filter (fun fl => fl.2.all (· ∈ S))).map (·.1)))) := by
  simp only [definedEmissions, hfams, ebind_ok]
  rw [chipLoop_spec ((fams.filter (fun fl => fl.2.all (· ∈ S))).map (·.1))
      (pySorted (fun a b => strLe a.name b.name) S) []
      (fun c hc => hokS c ((pySorted_mem _ S c).1 hc)),
    ebind_ok, epure_eq, List.nil_append]

/-- C2 (amended): when the chipset `S` is not a superset of the reference `R`
(otherwise `defined_list` returns the literal `"1"`), and all chip names pass
`get_family` with an upper-case family prefix, `defined_list` renders exactly
the token list of `definedEmissions`, in which every wholly contained family
of `R` appears as exactly one `defined(<FAMILY>)` token with no
`defined(<chip>)` token for any chip of that family, while every chip of `S`
whose family is not wholly contained is emitted individually. -/
theorem claim_C2_amended (S R : List ChipR) (cpl : Nat) (pfx : String)
    (toks : List DefTok)
    (hnot : (R.all (· ∈ S)) = false)
    (hokR : ∀ c ∈ R, chipNameOk c = true)
    (hokS : ∀ c ∈ S, chipNameOk c = true)
    (htoks : definedEmissions S R = .ok toks) :
    defined_list S R cpl pfx = .ok ((renderToks cpl pfx toks 0).dropRight 4) ∧
    (∀ f, whollyContained S R f →
      toks.count (DefTok.family f) = 1 ∧
      ∀ c ∈ S, famOf c = some f → DefTok.chip c.name ∉ toks) ∧
    (∀ c ∈ S, ∀ f, famOf c = some f → ¬ whollyContained S R f →
      DefTok.chip c.name ∈ toks) := by
  obtain ⟨fams, hfams, k1, k2, k3⟩ := updateFamilies_spec R hokR
  obtain ⟨m1, m2⟩ := matchedKeys_spec S R fams k1 k2 k3
  have heq := definedEmissions_eq S R fams hfams hokS
  rw [htoks] at heq
  have hE := Except.ok.inj heq
  subst hE
  refine ⟨?_, ?_, ?_⟩
  · unfold defined_list
    rw [if_neg (by rw [hnot]; simp), htoks, ebind_ok]
  · intro f hw
    have hK : f ∈ (fams.filter (fun fl => fl.2.all (· ∈ S))).map Prod.fst :=
      (m2 f).2 hw
    constructor
    · rw [List.count_append]
      have hc1 : ((pySorted strLe
            ((fams.filter (fun fl => fl.2.all (· ∈ S))).map (·.1))).map
            DefTok.family).count (DefTok.family f) = 1 := by
        rw [List.count_map_of_injective _ DefTok.family
          (fun a b h => by injection h) f,
          (pySorted_perm strLe _).count_eq]
        exact List.count_eq_one_of_mem m1 hK
      have hc2 : ((pySorted (fun a b => strLe a.name b.name) S).filterMap
          (chipEmit ((fams.filter (fun fl => fl.2.all (· ∈ S))).map
            (·.1)))).count (DefTok.family f) = 0 := by
        rw [List.count_eq_zero]
        intro hmem
        obtain ⟨c, _, hce⟩ := List.mem_filterMap.1 hmem
        cases hgf : get_family c.name with
        | error e =>
          rw [chipEmit_err _ c e hgf] at hce
          simp at hce
        | ok g =>
          rw [chipEmit_ok _ c g hgf] at hce
          by_cases hk :
            ((fams.filter (fun fl => fl.2.all (· ∈ S))).map (·.1)).contains g = true
          · rw [if_pos hk] at hce
            simp at hce
          · rw [if_neg hk] at hce
            simp at hce
      rw [hc1, hc2]
    · intro c hc hfc hmem
      rcases List.mem_append.1 hmem with hm | hm
      · obtain ⟨g, _, hgeq⟩ := List.mem_map.1 hm
        simp at hgeq
      · obtain ⟨c', hc', hce⟩ := List.mem_filterMap.1 hm
        cases hgf : get_family c'.name with
        | error e =>
          rw [chipEmit_err _ c' e hgf] at hce
          simp at hce
        | ok g =>
          rw [chipEmit_ok _ c' g hgf] at hce
          by_cases hk :
            ((fams.filter (fun fl => fl.2.all (· ∈ S))).map (·.1)).contains g = true
          · rw [if_pos hk] at hce
            simp at hce
          · rw [if_neg hk] at hce
            have hname : c'.name = c.name := by
              have h := Option.some.inj hce
              injection h
            rw [hname] at hgf
            have hgf2 : g = f :=
              Except.ok.inj (hgf.symm.trans (famOf_ok c f hfc))
            subst hgf2
            exact hk ((contains_eq_mem _ g).2 hK)
  · intro c hc f hfc hnw
    have hfK : f ∉ (fams.filter (fun fl => fl.2.all (· ∈ S))).map Prod.fst :=
      fun h => hnw ((m2 f).1 h)
    have hgf : get_family c.name = .ok f := famOf_ok c f hfc
    refine List.mem_append_right _ (List.mem_filterMap.2 ⟨c, ?_, ?_⟩)
    · exact (pySorted_mem _ S c).2 hc
    · rw [chipEmit_ok _ c f hgf,
        if_neg (fun h => hfK ((contains_eq_mem _ f).1 h))]

/-- Witness for the amended C2 at the concrete chipsets `c2S` and `c2R`:
family `STM32F4` of the reference is wholly contained (one family token, no
chip tokens for it) while `STM32L0` is not. -/
theorem claim_C2_amended_witness :
    (c2R.all (· ∈ c2S)) = false ∧
    (defined_list c2S c2R 5 "    " =
        .ok ((renderToks 5 "    " [DefTok.family "STM32F4"] 0).dropRight 4) ∧
      (∀ f, whollyContained c2S c2R f →
        ([DefTok.family "STM32F4"] : List DefTok).count (DefTok.family f) = 1 ∧
        ∀ c ∈ c2S, famOf c = some f →
          DefTok.chip c.name ∉ ([DefTok.family "STM32F4"] : List DefTok)) ∧
      (∀ c ∈ c2S, ∀ f, famOf c = some f → ¬ whollyContained c2S c2R f →
        DefTok.chip c.name ∈ ([DefTok.family "STM32F4"] : List DefTok))) :=
  ⟨by decide,
    claim_C2_amended c2S c2R 5 "    " [DefTok.family "STM32F4"] (by decide)
      (by decide) (by decide) (by decide)⟩

/-! ### Hierarchy re-parenting (C6) -/

theorem ebind_assoc {α β γ : Type} (a : Except PyErr α) (f : α → Except PyErr β)
    (g : β → Except PyErr γ) :
    (a >>= f) >>= g = a >>= fun x => f x >>= g := by
  cases a <;> rfl

theorem parentOf_get (h : Heap) (i : Nat) (o : Obj)
    (hg : h.get? i = some o) : parentOf h i = some o.parent := by
  unfold parentOf
  rw [hg]
  rfl

theorem parentOf_some (h : Heap) (i : Nat) (pp : Option Nat)
    (hp : parentOf h i = some pp) :
    ∃ o, h.get? i = some o ∧ o.parent = pp := by
  unfold parentOf at hp
  cases hg : h.get? i with
  | none =>
    rw [hg] at hp
    exact absurd hp (by simp)
  | some o =>
    rw [hg] at hp
    exact ⟨o, rfl, by simpa using hp⟩

theorem parentOf_of_shapeOf (h h' : Heap) (i : Nat)
    (he : shapeOf h' i = shapeOf h i) : parentOf h' i = parentOf h i := by
  unfold shapeOf at he
  unfold parentOf
  cases h1 : h'.get? i <;> cases h2 : h.get? i <;> rw [h1, h2] at he <;>
    simp_all

theorem parentOf_of_shapeNCOf (h h' : Heap) (i : Nat)
    (he : shapeNCOf h' i = shapeNCOf h i) : parentOf h' i = parentOf h i := by
  unfold shapeNCOf at he
  unfold parentOf
  cases h1 : h'.get? i <;> cases h2 : h.get? i <;> rw [h1, h2] at he <;>
    simp_all

theorem parentOf_set_self (h : Heap) (j : Nat) (o o' : Obj)
    (hj : h.get? j = some o) :
    parentOf (hSet h j o') j = some o'.parent := by
  unfold parentOf
  rw [get?_hSet_self h j o' o hj]
  rfl

theorem parentOf_set_ne (h : Heap) (j i : Nat) (o : Obj) (hne : j ≠ i) :
    parentOf (hSet h j o) i = parentOf h i := by
  unfold parentOf
  rw [get?_hSet_ne h j i o hne]

theorem nameOf_get (h : Heap) (i : Nat) (o : Obj)
    (hg : h.get? i = some o) : nameOf h i = some o.name := by
  unfold nameOf
  rw [hg]
  rfl

theorem nameOf_of_shapeOf (h h' : Heap) (i : Nat)
    (he : shapeOf h' i = shapeOf h i) : nameOf h' i = nameOf h i := by
  unfold shapeOf at he
  unfold nameOf
  cases h1 : h'.get? i <;> cases h2 : h.get? i <;> rw [h1, h2] at he <;>
    simp_all

theorem nameOf_set_keep (h : Heap) (j : Nat) (o o' : Obj)
    (hj : h.get? j = some o) (hc : o'.name = o.name) :
    ∀ i, nameOf (hSet h j o') i = nameOf h i := by
  intro i
  by_cases hij : j = i
  · subst hij
    unfold nameOf
    rw [get?_hSet_self h j _ o hj, hj]
    simpa using hc
  · unfold nameOf
    rw [get?_hSet_ne h j i _ hij]

theorem editedOf_set_keep (h : Heap) (j : Nat) (o o' : Obj)
    (hj : h.get? j = some o) (hc : o'.edited = o.edited) :
    ∀ i, editedOf (hSet h j o') i = editedOf h i := by
  intro i
  by_cases hij : j = i
  · subst hij
    unfold editedOf
    rw [get?_hSet_self h j _ o hj, hj]
    simpa using hc
  · exact editedOf_set_ne h j i _ hij

theorem childrenOf_set_ne (h : Heap) (j i : Nat) (o : Obj) (hne : j ≠ i) :
    childrenOf (hSet h j o) i = childrenOf h i := by
  unfold childrenOf
  rw [get?_hSet_ne h j i o hne]

theorem kidsOf_get (h : Heap) (i : Nat) (o : Obj) (hg : h.get? i = some o) :
    kidsOf h i = o.children.getD [] := by
  unfold kidsOf
  rw [childrenOf_get h i o hg]
  rfl

theorem kidsOf_congr (h h' : Heap) (i : Nat)
    (he : childrenOf h' i = childrenOf h i) : kidsOf h' i = kidsOf h i := by
  unfold kidsOf
  rw [he]

theorem sameName_eq (h : Heap) (a b : Nat) (oa ob : Obj)
    (ha : h.get? a = some oa) (hb : h.get? b = some ob) :
    sameName h a b = .ok (oa.name == ob.name) := by
  unfold sameName
  rw [hGet_of_get? h a oa ha, ebind_ok, hGet_of_get? h b ob hb, ebind_ok]

theorem sameName_err_left (h : Heap) (a b : Nat) (ha : h.get? a = none) :
    sameName h a b = .error .attributeError := by
  unfold sameName
  rw [hGet_of_none h a ha, ebind_err]

theorem sameName_err_right (h : Heap) (a b : Nat) (oa : Obj)
    (ha : h.get? a = some oa) (hb : h.get? b = none) :
    sameName h a b = .error .attributeError := by
  unfold sameName
  rw [hGet_of_get? h a oa ha, ebind_ok, hGet_of_none h b hb, ebind_err]

/-- When no listed child is the target or shares its name, the child lookup
of `add_child` (`child not in self`) comes back empty. -/
theorem findEqChild_none_of (h : Heap) :
    ∀ (cs : List Nat) (t : Nat) (r : Option Nat),
      findEqChild h cs t = .ok r →
      (∀ x ∈ cs, x ≠ t ∧ nameOf h x ≠ nameOf h t) → r = none := by
  intro cs
  induction cs with
  | nil =>
    intro t r hok _
    unfold findEqChild at hok
    exact (Except.ok.inj hok).symm
  | cons a rest ih =>
    intro t r hok hno
    obtain ⟨hne, hname⟩ := hno a (List.mem_cons_self _ _)
    unfold findEqChild at hok
    rw [if_neg hne] at hok
    cases hga : h.get? a with
    | none =>
      rw [sameName_err_left h a t hga, ebind_err] at hok
      exact absurd hok (by simp)
    | some oa =>
      cases hgt : h.get? t with
      | none =>
        rw [sameName_err_right h a t oa hga hgt, ebind_err] at hok
        exact absurd hok (by simp)
      | some ot =>
        rw [sameName_eq h a t oa ot hga hgt, ebind_ok] at hok
        have hbeq : (oa.name == ot.name) = false := by
          refine beq_eq_false_iff_ne.2 ?_
          intro he
          exact hname (by rw [nameOf_get h a oa hga, nameOf_get h t ot hgt, he])
        rw [hbeq, if_neg (by simp)] at hok
        exact ih t r hok (fun x hx => hno x (List.mem_cons_of_mem _ hx))

/-- The `set_parent` step of the hierarchy interpreter, unfolded (new parent
given). -/
theorem hExec_setParentSome_eq (f : Nat) (cid p : Nat) (h : Heap) :
    hExec (f + 1) (.hSetParent cid (some p)) h =
      (hGet h cid >>= fun c =>
        if some p = c.parent then .ok h
        else
          match c.parent with
          | some oldp =>
            (hGet h oldp >>= fun po =>
              match po.children with
              | none => .error .attributeError
              | some cs =>
                (removeFirstEq h cs cid >>= fun r =>
                  match r with
                  | some cs' =>
                    (invalidate f oldp
                        (hSet h oldp { po with children := some cs' }) >>=
                      fun h =>
                        (hGet h cid >>= fun co =>
                          (invalidate f cid
                              (hSet h cid { co with parent := some p }) >>=
                            fun h => hExec f (.hAddChild p cid) h)))
                  | none => .error .valueError))
          | none =>
            (hGet h cid >>= fun co =>
              (invalidate f cid (hSet h cid { co with parent := some p }) >>=
                fun h => hExec f (.hAddChild p cid) h))) := rfl

/-- The `add_child` step of the hierarchy interpreter, unfolded. -/
theorem hExec_addChild_eq (f : Nat) (sid cid : Nat) (h : Heap) :
    hExec (f + 1) (.hAddChild sid cid) h =
      (hGet h sid >>= fun so =>
        (findEqChild h (so.children.getD []) cid >>= fun found =>
          match found with
          | none =>
            (invalidate f sid h >>= fun h =>
              (hGet h sid >>= fun so' =>
                (hGet (hSet h sid
                    { so' with children := some (so'.children.getD [] ++ [cid]) })
                    cid >>= fun co =>
                  (addChips f sid co.chips
                      (hSet h sid
                        { so' with
                          children := some (so'.children.getD [] ++ [cid]) }) >>=
                    fun h => hExec f (.hSetParent cid (some sid)) h))))
          | some eqc => hExec f (.hAbsorb eqc cid) h)) := rfl

/-- The common tail of `set_parent` once the old parent (if any) has been
detached: install the parent link, invalidate the child, run `add_child` on
the new parent.  When no child of `p` is `c` or name-equal to `c`, the new
parent is left edited and no edited flag is ever cleared. -/
theorem setParent_tail (f : Nat) (c p : Nat) (h1 h' : Heap)
    (hok : (hGet h1 c >>= fun co =>
        (invalidate f c (hSet h1 c { co with parent := some p }) >>=
          fun h => hExec f (.hAddChild p c) h)) = .ok h')
    (hpc : p ≠ c)
    (hkids : ∀ x ∈ kidsOf h1 p, x ≠ c ∧ nameOf h1 x ≠ nameOf h1 c) :
    editedOf h' p = true ∧
    (∀ i, editedOf h1 i = true → editedOf h' i = true) := by
  cases hc1 : h1.get? c with
  | none =>
    rw [hGet_of_none _ _ hc1, ebind_err] at hok
    exact absurd hok (by simp)
  | some co1 =>
    rw [hGet_of_get? _ _ _ hc1, ebind_ok] at hok
    cases f with
    | zero =>
      rw [invalidate_zero, ebind_err] at hok
      exact absurd hok (by simp)
    | succ g =>
      cases hinv : invalidate (g + 1) c (hSet h1 c { co1 with parent := some p }) with
      | error e =>
        rw [hinv, ebind_err] at hok
        exact absurd hok (by simp)
      | ok h3 =>
        rw [hinv, ebind_ok] at hok
        obtain ⟨hsh3, hmono3, _⟩ := invalidate_spec (g + 1) c _ h3 hinv
        have hname2 :=
          nameOf_set_keep h1 c co1 { co1 with parent := some p } hc1 rfl
        have hch2 :=
          childrenOf_set_keep h1 c co1 { co1 with parent := some p } hc1 rfl
        have hed2 :=
          editedOf_set_keep h1 c co1 { co1 with parent := some p } hc1 rfl
        have hname3 : ∀ i, nameOf h3 i = nameOf h1 i := fun i => by
          rw [nameOf_of_shapeOf _ _ i (hsh3 i), hname2 i]
        have hch3 : ∀ i, childrenOf h3 i = childrenOf h1 i := fun i => by
          rw [childrenOf_of_shapeOf _ _ i (hsh3 i), hch2 i]
        have hmono13 : ∀ i, editedOf h1 i = true → editedOf h3 i = true :=
          fun i hi => hmono3 i (by rw [hed2 i]; exact hi)
        have hpar3 : parentOf h3 c = some (some p) := by
          rw [parentOf_of_shapeOf _ _ c (hsh3 c),
            parentOf_set_self h1 c co1 { co1 with parent := some p } hc1]
        rw [hExec_addChild_eq] at hok
        cases hp3 : h3.get? p with
        | none =>
          rw [hGet_of_none _ _ hp3, ebind_err] at hok
          exact absurd hok (by simp)
        | some po3 =>
          rw [hGet_of_get? _ _ _ hp3, ebind_ok] at hok
          cases hfind : findEqChild h3 (po3.children.getD []) c with
          | error e =>
            rw [hfind, ebind_err] at hok
            exact absurd hok (by simp)
          | ok found =>
            rw [hfind, ebind_ok] at hok
            have hfound : found = none := by
              refine findEqChild_none_of h3 _ c found hfind ?_
              intro x hx
              have hx' : x ∈ kidsOf h1 p := by
                rw [← kidsOf_congr h1 h3 p (hch3 p), kidsOf_get h3 p po3 hp3]
                exact hx
              obtain ⟨hxc, hxn⟩ := hkids x hx'
              exact ⟨hxc, by rw [hname3 x, hname3 c]; exact hxn⟩
            subst hfound
            dsimp only at hok
            cases hinv4 : invalidate g p h3 with
            | error e =>
              rw [hinv4, ebind_err] at hok
              exact absurd hok (by simp)
            | ok h4 =>
              rw [hinv4, ebind_ok] at hok
              obtain ⟨hsh4, hmono4, hped4⟩ := invalidate_spec g p h3 h4 hinv4
              cases hp4 : h4.get? p with
              | none =>
                rw [hGet_of_none _ _ hp4, ebind_err] at hok
                exact absurd hok (by simp)
              | some po4 =>
                rw [hGet_of_get? _ _ _ hp4, ebind_ok] at hok
                cases hc5 : (hSet h4 p
                    { po4 with
                      children := some (po4.children.getD [] ++ [c]) }).get? c with
                | none =>
                  rw [hGet_of_none _ _ hc5, ebind_err] at hok
                  exact absurd hok (by simp)
                | some co5 =>
                  rw [hGet_of_get? _ _ _ hc5, ebind_ok] at hok
                  cases hchp : addChips g p co5.chips (hSet h4 p
                      { po4 with
                        children := some (po4.children.getD [] ++ [c]) }) with
                  | error e =>
                    rw [hchp, ebind_err] at hok
                    exact absurd hok (by simp)
                  | ok h6 =>
                    rw [hchp, ebind_ok] at hok
                    obtain ⟨hsh6, hmono6⟩ := addChips_spec g p _ _ h6 hchp
                    have hed5 := editedOf_set_keep h4 p po4
                      { po4 with
                        children := some (po4.children.getD [] ++ [c]) } hp4 rfl
                    have hpar6 : parentOf h6 c = some (some p) := by
                      rw [parentOf_of_shapeNCOf _ _ c (hsh6 c),
                        parentOf_set_ne h4 p c _ hpc,
                        parentOf_of_shapeOf _ _ c (hsh4 c), hpar3]
                    obtain ⟨co6, hco6, hco6p⟩ := parentOf_some h6 c (some p) hpar6
                    clear hinv hinv4 hchp hfind
                    cases g with
                    | zero =>
                      rw [show hExec 0 (.hSetParent c (some p)) h6 =
                        .error .outOfFuel from rfl] at hok
                      exact absurd hok (by simp)
                    | succ g' =>
                      rw [hExec_setParentSome_eq, hGet_of_get? _ _ _ hco6,
                        ebind_ok, if_pos hco6p.symm] at hok
                      have hh : h6 = h' := Except.ok.inj hok
                      subst hh
                      constructor
                      · exact hmono6 p (by rw [hed5 p]; exact hped4)
                      · intro i hi
                        exact hmono6 i (by
                          rw [hed5 i]
                          exact hmono4 i (hmono13 i hi))

/-- C6 (amended): after a successful `c.set_parent(p)` where `p` is a new
parent (not `c` itself, not `c`'s current parent) and no child of `p` is `c`
or shares `c`'s name, the new parent `p` ends up marked edited — and so does
the old parent when there was one.  (When `p` already holds a name-equal
child, `add_child` absorbs `c` without invalidating `p`, so `p` can stay
clean: `claim_C6_counterexample`.) -/
theorem claim_C6_amended (f : Nat) (c p : Nat) (h h' : Heap)
    (hok : setParent f c (some p) h = .ok h')
    (hpc : p ≠ c)
    (hnotp : parentOf h c ≠ some (some p))
    (hkids : ∀ x ∈ kidsOf h p, x ≠ c ∧ nameOf h x ≠ nameOf h c) :
    editedOf h' p = true ∧
    (∀ q, parentOf h c = some (some q) → editedOf h' q = true) := by
  cases f with
  | zero =>
    rw [show setParent 0 c (some p) h = .error .outOfFuel from rfl] at hok
    exact absurd hok (by simp)
  | succ f =>
    unfold setParent at hok
    rw [hExec_setParentSome_eq] at hok
    cases hc0 : h.get? c with
    | none =>
      rw [hGet_of_none _ _ hc0, ebind_err] at hok
      exact absurd hok (by simp)
    | some co =>
      rw [hGet_of_get? _ _ _ hc0, ebind_ok] at hok
      have hpar : parentOf h c = some co.parent := parentOf_get h c co hc0
      have hcond : ¬ (some p = co.parent) := by
        intro he
        exact hnotp (by rw [hpar, ← he])
      rw [if_neg hcond] at hok
      cases hcp : co.parent with
      | none =>
        rw [hcp] at hok
        dsimp only at hok
        rw [show (Except.ok co : Except PyErr Obj) = hGet h c from
          (hGet_of_get? h c co hc0).symm] at hok
        have ht := setParent_tail f c p h h' hok hpc hkids
        refine ⟨ht.1, ?_⟩
        intro q hq
        rw [hcp] at hpar
        rw [hpar] at hq
        exact absurd hq (by simp)
      | some q0 =>
        rw [hcp] at hok
        dsimp only at hok
        cases hq0 : h.get? q0 with
        | none =>
          rw [hGet_of_none _ _ hq0, ebind_err] at hok
          exact absurd hok (by simp)
        | some qo =>
          rw [hGet_of_get? _ _ _ hq0, ebind_ok] at hok
          cases hqch : qo.children with
          | none =>
            rw [hqch] at hok
            dsimp only at hok
            exact absurd hok (by simp)
          | some cs =>
            rw [hqch] at hok
            dsimp only at hok
            cases hrem : removeFirstEq h cs c with
            | error e =>
              rw [hrem, ebind_err] at hok
              exact absurd hok (by simp)
            | ok r =>
              rw [hrem, ebind_ok] at hok
              cases r with
              | none =>
                dsimp only at hok
                exact absurd hok (by simp)
              | some cs' =>
                dsimp only at hok
                cases hinv1 : invalidate f q0
                    (hSet h q0 { qo with children := some cs' }) with
                | error e =>
                  rw [hinv1, ebind_err] at hok
                  exact absurd hok (by simp)
                | ok h1 =>
                  rw [hinv1, ebind_ok] at hok
                  obtain ⟨hsh1, _, hq0ed⟩ := invalidate_spec f q0 _ h1 hinv1
                  have hq0p : q0 ≠ p := by
                    intro he
                    exact hcond (by rw [hcp, he])
                  have hname1 : ∀ i, nameOf h1 i = nameOf h i := fun i => by
                    rw [nameOf_of_shapeOf _ _ i (hsh1 i),
                      nameOf_set_keep h q0 qo { qo with children := some cs' }
                        hq0 rfl i]
                  have hchp1 : childrenOf h1 p = childrenOf h p := by
                    rw [childrenOf_of_shapeOf _ _ p (hsh1 p),
                      childrenOf_set_ne h q0 p _ hq0p]
                  have hkids1 : ∀ x ∈ kidsOf h1 p,
                      x ≠ c ∧ nameOf h1 x ≠ nameOf h1 c := by
                    intro x hx
                    have hx' : x ∈ kidsOf h p := by
                      rwa [kidsOf_congr h h1 p hchp1] at hx
                    obtain ⟨h1x, h2x⟩ := hkids x hx'
                    exact ⟨h1x, by rw [hname1 x, hname1 c]; exact h2x⟩
                  have ht := setParent_tail f c p h1 h' hok hpc hkids1
                  refine ⟨ht.1, ?_⟩
                  intro q hq
                  rw [hpar, hcp] at hq
                  have hqq : q0 = q := by
                    have h1' := Option.some.inj hq
                    exact Option.some.inj h1'
                  subst hqq
                  exact ht.2 q0 hq0ed

/-- Witness for the amended C6 on `c6WHeap`: moving `X` (id 2) from `Q`
(id 0) to `P` (id 1), whose only child `Y` has a different name, marks both
`P` (the new parent) and `Q` (the old parent, id 0) edited. -/
theorem claim_C6_amended_witness :
    setParent 30 2 (some 1) c6WHeap = .ok c6WHeap' ∧
    editedOf c6WHeap' 1 = true ∧ editedOf c6WHeap' 0 = true := by
  have ht := claim_C6_amended 30 2 1 c6WHeap c6WHeap' (by decide) (by decide)
    (by decide) (by decide)
  exact ⟨by decide, ht.1, ht.2 0 (by decide)⟩

end Sool
